import Mathlib

/-!
# mathclass: the table generator `cmd/gen_table/gen.go` and the range-table query

Shallow embedding of `parse`, `getClass` and `addRange` of `gen.go`, of the
standard-library functions they call (`strings.HasPrefix`, `strings.Contains`,
`strings.Split`, `strconv.ParseUint`, the `bufio.Scanner` over the file) and
of the membership test `unicode.Is` that `data_test.go` runs over the fifteen
tables.

Conventions of the embedding.
* A Go string is a Lean `String`. Every separator and digit the program looks
  at is ASCII, so reading a string code point by code point or byte by byte
  gives the same fields and the same digits.
* Machine integers are natural numbers; a conversion `uint16(x)`, `uint32(x)`
  is written `x % 2 ^ 16`, `x % 2 ^ 32`, and `uint64` arithmetic is reduced
  modulo `2 ^ 64`.
* The fifteen package-level `*unicode.RangeTable` variables are the fields of
  `Tables`; a pointer to one of them is a `Class`. A function that mutates a
  table through such a pointer returns the new table.
* `parse` receives the lines of the file: the pieces of its contents between
  line feeds, as `bufio.ScanLines` cuts them. The scanner hands over a line
  of fewer than `MaxScanTokenSize` bytes without its final carriage return
  (`s.Text()`), and stops with `ErrTooLong` at a longer one; `parse` returns
  that error after its loop. Reading the file (`os.ReadFile`) is outside the
  embedding.
-/

namespace MathClass

/-! ## Standard library: strings -/

/-- Go `strings.HasPrefix(s, prefix)`. -/
def HasPrefix (s pre : String) : Bool :=
  pre.data.isPrefixOf s.data

/-- Whether `sub` occurs in the character list at some position. -/
def containsChars (sub : List Char) : List Char → Bool
  | [] => sub.isPrefixOf []
  | c :: rest => sub.isPrefixOf (c :: rest) || containsChars sub rest

/-- Go `strings.Contains(s, substr)`. -/
def Contains (s substr : String) : Bool :=
  containsChars substr.data s.data

/-- Put `c` in front of the first field of a list of fields. -/
def consHead (c : Char) : List (List Char) → List (List Char)
  | [] => [[c]]
  | h :: t => (c :: h) :: t

/-- Fields of a character list around the successive, non-overlapping
occurrences of the non-empty separator `sep`, found from left to right.
`skip` counts the characters of an occurrence that was just recognised and
that remain to be passed over. -/
def splitChars (sep : List Char) : List Char → Nat → List (List Char)
  | [], _ => [[]]
  | _ :: rest, skip + 1 => splitChars sep rest skip
  | c :: rest, 0 =>
    if sep.isPrefixOf (c :: rest) then
      [] :: splitChars sep rest (sep.length - 1)
    else
      consHead c (splitChars sep rest 0)

/-- Go `strings.Split(s, sep)` for a non-empty separator. -/
def Split (s sep : String) : List String :=
  (splitChars sep.data s.data 0).map String.mk

/-! ## Standard library: bufio.Scanner -/

/-- The number of bytes of a code point in UTF-8. -/
def utf8Size (c : Char) : Nat :=
  if c.toNat < 0x80 then 1
  else if c.toNat < 0x800 then 2
  else if c.toNat < 0x10000 then 3
  else 4

/-- Go `len(s)` of a string: its number of bytes. -/
def len (s : String) : Nat :=
  (s.data.map utf8Size).sum

/-- Go `bufio.MaxScanTokenSize`, the largest buffer of a `Scanner` that was
given no other: a line and its line feed must fit in it, so a line of
`MaxScanTokenSize` bytes or more makes `Scan` give up with `ErrTooLong`. -/
def MaxScanTokenSize : Nat := 64 * 1024

/-- Go `dropCR(data)` of `bufio`: the data without a terminal carriage
return (code point 13). -/
def dropCR (data : String) : String :=
  if data.data.getLast? = some (Char.ofNat 13) then String.mk data.data.dropLast else data

/-! ## Standard library: strconv.ParseUint -/

/-- The two sentinel errors of `strconv` that `ParseUint` reports for a valid
base and bit size. -/
inductive NumErrKind where
  | ErrSyntax
  | ErrRange
  deriving DecidableEq, Repr

/-- Go `*strconv.NumError`. -/
structure NumError where
  Func : String
  Num : String
  Err : NumErrKind
  deriving DecidableEq, Repr

deriving instance DecidableEq for Except

/-- Go `lower(c)` of `strconv`: `c | ('x' - 'X')`. -/
def lower (c : Nat) : Nat :=
  c ||| 0x20

/-- The digit loop of `strconv.ParseUint` over the remaining characters, with
the value `n` accumulated so far. -/
def parseUintLoop (base cutoff maxVal : Nat) : List Char → Nat → Except NumErrKind Nat
  | [], n => .ok n
  | ch :: rest, n =>
    let c := ch.toNat
    if 48 ≤ c ∧ c ≤ 57 then
      let d := c - 48
      if d ≥ base then .error .ErrSyntax
      else if n ≥ cutoff then .error .ErrRange
      else
        let n' := (n * base) % 2 ^ 64
        let n1 := (n' + d) % 2 ^ 64
        if n1 < n' ∨ n1 > maxVal then .error .ErrRange
        else parseUintLoop base cutoff maxVal rest n1
    else if 97 ≤ lower c ∧ lower c ≤ 122 then
      let d := lower c - 97 + 10
      if d ≥ base then .error .ErrSyntax
      else if n ≥ cutoff then .error .ErrRange
      else
        let n' := (n * base) % 2 ^ 64
        let n1 := (n' + d) % 2 ^ 64
        if n1 < n' ∨ n1 > maxVal then .error .ErrRange
        else parseUintLoop base cutoff maxVal rest n1
    else .error .ErrSyntax

/-- Go `strconv.ParseUint(s, base, bitSize)` for an explicit base
`2 ≤ base ≤ 36` and `1 ≤ bitSize ≤ 64` (gen.go calls it with base 16 and bit
sizes 64 and 32). `cutoff` is `maxUint64/base + 1` and `maxVal` is
`uint64(1)<<bitSize - 1`. -/
def ParseUint (s : String) (base bitSize : Nat) : Except NumError Nat :=
  if s = "" then .error ⟨"ParseUint", s, .ErrSyntax⟩
  else
    let cutoff := (2 ^ 64 - 1) / base + 1
    let maxVal := (2 ^ bitSize % 2 ^ 64 + 2 ^ 64 - 1) % 2 ^ 64
    match parseUintLoop base cutoff maxVal s.data 0 with
    | .ok n => .ok n
    | .error kind => .error ⟨"ParseUint", s, kind⟩

/-! ## Standard library: unicode range tables -/

/-- Go `unicode.Range16` and `unicode.Range32`: the inclusive range `Lo..Hi`.
gen.go sets `Lo` and `Hi` only and leaves `Stride` to the template that
writes the tables out; the tables are queried as tables of stride 1, in which
every code point from `Lo` to `Hi` belongs to the range, so the stride test
of `unicode.is16` and `unicode.is32` is always passed. The width of the bounds
is fixed by the list a range is stored in. -/
structure Range where
  Lo : Nat
  Hi : Nat
  deriving DecidableEq, Repr

/-- Go `unicode.RangeTable`: the 16-bit ranges and the 32-bit ranges. -/
structure RangeTable where
  R16 : List Range := []
  R32 : List Range := []
  deriving DecidableEq, Repr

/-- Go `unicode.linearMax`. -/
def linearMax : Nat := 18

/-- Go `unicode.MaxLatin1`. -/
def MaxLatin1 : Nat := 0xFF

/-- The linear scan of `unicode.is16` and `unicode.is32`. -/
def isLinear : List Range → Nat → Bool
  | [], _ => false
  | range_ :: rest, r =>
    if r < range_.Lo then false
    else if r ≤ range_.Hi then true
    else isLinear rest r

/-- The binary search of `unicode.is16` and `unicode.is32` over the indices
`lo ≤ i < hi`. An index outside the slice cannot arise (`m < hi ≤ len`). -/
def isBinary (ranges : List Range) (r : Nat) (lo hi : Nat) : Bool :=
  if _h : lo < hi then
    let m := (lo + hi) / 2
    match ranges[m]? with
    | none => false
    | some range_ =>
      if range_.Lo ≤ r ∧ r ≤ range_.Hi then true
      else if r < range_.Lo then isBinary ranges r lo m
      else isBinary ranges r (m + 1) hi
  else false
termination_by hi - lo
decreasing_by
  all_goals simp_wf
  all_goals omega

/-- Go `unicode.is16(ranges, r)`. -/
def is16 (ranges : List Range) (r : Nat) : Bool :=
  if ranges.length ≤ linearMax ∨ r ≤ MaxLatin1 then isLinear ranges r
  else isBinary ranges r 0 ranges.length

/-- Go `unicode.is32(ranges, r)`. -/
def is32 (ranges : List Range) (r : Nat) : Bool :=
  if ranges.length ≤ linearMax then isLinear ranges r
  else isBinary ranges r 0 ranges.length

/-- Go conversion `rune(x)` of a `uint32` to `int32`. -/
def toRune (x : Nat) : Int :=
  if x % 2 ^ 32 < 2 ^ 31 then (x % 2 ^ 32 : Nat) else ((x % 2 ^ 32 : Nat) : Int) - 2 ^ 32

/-- Go `unicode.Is(rangeTab, r)` for a non-negative rune `r`: the 16-bit list
is searched when it is non-empty and `uint32(r)` is at most the `Hi` of its
last range, otherwise the 32-bit list when it is non-empty and `r` is at least
`rune(r32[0].Lo)`. -/
def Is (rangeTab : RangeTable) (r : Nat) : Bool :=
  let r16 := rangeTab.R16
  if (match r16.getLast? with
      | some last => decide (r % 2 ^ 32 ≤ last.Hi)
      | none => false) then
    is16 r16 (r % 2 ^ 16)
  else
    let r32 := rangeTab.R32
    if (match r32.head? with
        | some first => decide ((r : Int) ≥ toRune first.Lo)
        | none => false) then
      is32 r32 (r % 2 ^ 32)
    else false

/-! ## gen.go -/

/-- An `error` value that gen.go returns: one made by `errors.Errorf` (its
message, the verb `%v` replaced by the string), a `*strconv.NumError` passed
through `errors.WithStack`, or `bufio.ErrTooLong` ("bufio.Scanner: token too
long", the value of `s.Err()` when a line does not fit the buffer) passed
through `errors.WithStack`. -/
inductive GoError where
  | errorf (msg : String)
  | withStack (err : NumError)
  | ErrTooLong
  deriving DecidableEq, Repr

/-- A pointer to one of the fifteen package-level tables of gen.go. -/
inductive Class where
  | Normal
  | Alphabetic
  | Binary
  | Closing
  | Diacritic
  | Fence
  | Glyph_Part
  | Large
  | Opening
  | Punctuation
  | Relation
  | Space
  | Unary
  | Vary
  | Special
  deriving DecidableEq, Repr

/-- The fifteen package-level tables of gen.go, each initially
`&unicode.RangeTable{}`. -/
structure Tables where
  Normal : RangeTable := {}
  Alphabetic : RangeTable := {}
  Binary : RangeTable := {}
  Closing : RangeTable := {}
  Diacritic : RangeTable := {}
  Fence : RangeTable := {}
  Glyph_Part : RangeTable := {}
  Large : RangeTable := {}
  Opening : RangeTable := {}
  Punctuation : RangeTable := {}
  Relation : RangeTable := {}
  Space : RangeTable := {}
  Unary : RangeTable := {}
  Vary : RangeTable := {}
  Special : RangeTable := {}
  deriving DecidableEq, Repr

/-- The tables as the `var` block declares them: all empty. -/
def Tables.empty : Tables := {}

/-- The table a pointer designates. -/
def Tables.get (T : Tables) : Class → RangeTable
  | .Normal => T.Normal
  | .Alphabetic => T.Alphabetic
  | .Binary => T.Binary
  | .Closing => T.Closing
  | .Diacritic => T.Diacritic
  | .Fence => T.Fence
  | .Glyph_Part => T.Glyph_Part
  | .Large => T.Large
  | .Opening => T.Opening
  | .Punctuation => T.Punctuation
  | .Relation => T.Relation
  | .Space => T.Space
  | .Unary => T.Unary
  | .Vary => T.Vary
  | .Special => T.Special

/-- Overwrite the table a pointer designates. -/
def Tables.set (T : Tables) (c : Class) (t : RangeTable) : Tables :=
  match c with
  | .Normal => { T with Normal := t }
  | .Alphabetic => { T with Alphabetic := t }
  | .Binary => { T with Binary := t }
  | .Closing => { T with Closing := t }
  | .Diacritic => { T with Diacritic := t }
  | .Fence => { T with Fence := t }
  | .Glyph_Part => { T with Glyph_Part := t }
  | .Large => { T with Large := t }
  | .Opening => { T with Opening := t }
  | .Punctuation => { T with Punctuation := t }
  | .Relation => { T with Relation := t }
  | .Space => { T with Space := t }
  | .Unary => { T with Unary := t }
  | .Vary => { T with Vary := t }
  | .Special => { T with Special := t }

/-- The value `getClass` panics with: `fmt.Sprintf(format, arg)`, kept as the
format and its one argument (the verb `%q` prints the argument quoted). -/
structure PanicValue where
  format : String
  arg : String
  deriving DecidableEq, Repr

/-- Go `getClass(s)` of gen.go: the table of a class tag, or a panic. -/
def getClass (s : String) : Except PanicValue Class :=
  if s = "N" then .ok .Normal
  else if s = "A" then .ok .Alphabetic
  else if s = "B" then .ok .Binary
  else if s = "C" then .ok .Closing
  else if s = "D" then .ok .Diacritic
  else if s = "F" then .ok .Fence
  else if s = "G" then .ok .Glyph_Part
  else if s = "L" then .ok .Large
  else if s = "O" then .ok .Opening
  else if s = "P" then .ok .Punctuation
  else if s = "R" then .ok .Relation
  else if s = "S" then .ok .Space
  else if s = "U" then .ok .Unary
  else if s = "V" then .ok .Vary
  else if s = "X" then .ok .Special
  else .error ⟨"support for class %q not yet implemented", s⟩

/-- Go `math.MaxUint16`. -/
def MaxUint16 : Nat := 65535

/-- Go `addRange(class, raw_range)` of gen.go: the table after the call and
the error returned (`none` for `nil`). -/
def addRange (class_ : RangeTable) (raw_range : String) : RangeTable × Option GoError :=
  if Contains raw_range ".." then
    match Split raw_range ".." with
    | [raw_start, raw_end] =>
      match ParseUint raw_start 16 64 with
      | .error err => (class_, some (.withStack err))
      | .ok start =>
        match ParseUint raw_end 16 64 with
        | .error err => (class_, some (.withStack err))
        | .ok end_ =>
          if start ≤ MaxUint16 ∧ end_ ≤ MaxUint16 then
            ({ class_ with R16 := class_.R16 ++ [⟨start % 2 ^ 16, end_ % 2 ^ 16⟩] }, none)
          else
            ({ class_ with R32 := class_.R32 ++ [⟨start % 2 ^ 32, end_ % 2 ^ 32⟩] }, none)
    | _ =>
      (class_, some (.errorf ("expected two .. delimited parts in range, got " ++ raw_range)))
  else
    let raw_num := raw_range
    match ParseUint raw_num 16 32 with
    | .error err => (class_, some (.withStack err))
    | .ok num =>
      if num ≤ MaxUint16 then
        ({ class_ with R16 := class_.R16 ++ [⟨num % 2 ^ 16, num % 2 ^ 16⟩] }, none)
      else
        ({ class_ with R32 := class_.R32 ++ [⟨num % 2 ^ 32, num % 2 ^ 32⟩] }, none)

/-- How a run of `parse` ends: it returns `nil`, returns an error, or a panic
of `getClass` unwinds through it. -/
inductive Outcome where
  | ok
  | error (err : GoError)
  | panic (v : PanicValue)
  deriving DecidableEq, Repr

/-- Go `parse` of gen.go over the lines of the file, starting with the tables
in state `T`: the state of the tables when the run ends, and how it ends.
When no line is left, `s.Scan()` is false and `s.Err()` is `nil`. At a line
of `MaxScanTokenSize` bytes or more `s.Scan()` is false as well, the loop
ends, and `s.Err()` is `ErrTooLong`, which `parse` returns. Any other line is
handed over as `text`, without its final carriage return. -/
def parse : List String → Tables → Tables × Outcome
  | [], T => (T, .ok)
  | line :: rest, T =>
    if MaxScanTokenSize ≤ len line then (T, .error .ErrTooLong)
    else
      let text := dropCR line
      if HasPrefix text "#" then parse rest T
      else if len text = 0 then parse rest T
      else
        match Split text ";" with
        | [raw_range, raw_class] =>
          match getClass raw_class with
          | .error v => (T, .panic v)
          | .ok class_ =>
            match addRange (T.get class_) raw_range with
            | (t, some err) => (T.set class_ t, .error err)
            | (t, none) => parse rest (T.set class_ t)
        | _ =>
          (T, .error (.errorf ("expected two semi-colon delimited parts, got " ++ text)))

/-- The fifteen tables in the order `data_test.go` lists them, which is the
order of their declaration. -/
def classes : List Class :=
  [.Normal, .Alphabetic, .Binary, .Closing, .Diacritic, .Fence, .Glyph_Part, .Large,
   .Opening, .Punctuation, .Relation, .Space, .Unary, .Vary, .Special]

/-- Modelled from the spec: the Classifier `classify(index, codePoint)` of
sections 4.3 and 6, which the sources have only as the loop of `TestMathClass`
over `classes` with `unicode.In(r, class)` as the test: the first class, in
declaration order, whose table contains the code point; `none` is
"no class". -/
def classify (T : Tables) (r : Nat) : Option Class :=
  classes.find? (fun c => Is (T.get c) r)

/-! ## Notions used to state the properties -/

/-- The lines `parse` passes over: those that the scanner hands over (fewer
than `MaxScanTokenSize` bytes) and whose text begins with `#` or is empty. -/
def skipped (line : String) : Bool :=
  decide (len line < MaxScanTokenSize) &&
    (HasPrefix (dropCR line) "#" || decide (len (dropCR line) = 0))

/-- The values `start` and `end` that `addRange` parses from a specifier
`START..END`, or `num` twice for a single value; `none` when `addRange`
returns an error. These are the parsed values, before they are converted to
the width of a list. -/
def parsedRange (raw_range : String) : Option (Nat × Nat) :=
  if Contains raw_range ".." then
    match Split raw_range ".." with
    | [raw_start, raw_end] =>
      match ParseUint raw_start 16 64, ParseUint raw_end 16 64 with
      | .ok start, .ok end_ => some (start, end_)
      | _, _ => none
    | _ => none
  else
    match ParseUint raw_range 16 32 with
    | .ok num => some (num, num)
    | .error _ => none

/-- A table with one more range `lo..hi`, put in the list that `addRange`
chooses and converted to the width of that list. -/
def store (t : RangeTable) (lo hi : Nat) : RangeTable :=
  if lo ≤ MaxUint16 ∧ hi ≤ MaxUint16 then
    { t with R16 := t.R16 ++ [⟨lo % 2 ^ 16, hi % 2 ^ 16⟩] }
  else
    { t with R32 := t.R32 ++ [⟨lo % 2 ^ 32, hi % 2 ^ 32⟩] }

/-- What a data line says: a class and the range `lo..hi` of code points. -/
structure Record where
  cls : Class
  lo : Nat
  hi : Nat
  deriving DecidableEq, Repr

/-- The record `parse` reads from a line: the class of its tag and the parsed
range of its specifier; `none` for a line that the scanner refuses, that is
passed over or that is rejected. -/
def parsedLine (line : String) : Option Record :=
  if MaxScanTokenSize ≤ len line then none
  else if skipped line then none
  else
    match Split (dropCR line) ";" with
    | [raw_range, raw_class] =>
      match getClass raw_class, parsedRange raw_range with
      | .ok c, some (lo, hi) => some ⟨c, lo, hi⟩
      | _, _ => none
    | _ => none

/-- The records of a sequence of lines, in the order of the lines. -/
def records (lines : List String) : List Record :=
  lines.filterMap parsedLine

/-- The tables after the ranges of a list of records were stored in turn. -/
def build (es : List Record) (T : Tables) : Tables :=
  es.foldl (fun T e => T.set e.cls (store (T.get e.cls) e.lo e.hi)) T

/-- A hexadecimal digit: `0`-`9`, `a`-`f`, `A`-`F`. -/
def isHexDigit (c : Char) : Bool :=
  (48 ≤ c.toNat && c.toNat ≤ 57) || (97 ≤ c.toNat && c.toNat ≤ 102) ||
    (65 ≤ c.toNat && c.toNat ≤ 70)

/-- A base-16 unsigned literal: a non-empty string of hexadecimal digits. -/
def IsHexLiteral (s : String) : Prop :=
  s ≠ "" ∧ ∀ c ∈ s.data, isHexDigit c = true

/-- Go `strings.Join(parts, sep)` on character lists. -/
def joinChars (sep : List Char) : List (List Char) → List Char
  | [] => []
  | [x] => x
  | x :: y :: rest => x ++ sep ++ joinChars sep (y :: rest)

/-- A sequence of calls `addRange(class, raw_range)`, whatever each returns,
starting with the tables in state `T`. -/
def addRanges (calls : List (Class × String)) (T : Tables) : Tables :=
  calls.foldl (fun T call => T.set call.1 (addRange (T.get call.1) call.2).1) T

/-- A range holds a code point. -/
def Range.Holds (x : Range) (r : Nat) : Prop :=
  x.Lo ≤ r ∧ r ≤ x.Hi

/-- A record covers a code point. -/
def Record.Covers (e : Record) (cp : Nat) : Prop :=
  e.lo ≤ cp ∧ cp ≤ e.hi

/-- The range of a record. -/
def Record.range (e : Record) : Range :=
  ⟨e.lo, e.hi⟩

/-- A list of ranges is ascending and non-overlapping: every range ends
before every later one begins. -/
def Ascending (l : List Range) : Prop :=
  l.Pairwise (fun a b => a.Hi < b.Lo)

/-- Both bounds of a record fit 16 bits: the test of `addRange` for the
16-bit list. -/
def Record.fits16 (e : Record) : Bool :=
  decide (e.lo ≤ MaxUint16 ∧ e.hi ≤ MaxUint16)

/-- Several ranges stored in one table in turn. -/
def storeAll (t : RangeTable) (es : List Record) : RangeTable :=
  es.foldl (fun t e => store t e.lo e.hi) t

/-- A small table file in the format of `MathClass-15.txt`: a comment, a blank
line, and ranges of three classes, one of them across `0xFFFF` and one above
it. -/
def sampleLines : List String :=
  ["# code point(s);class", "", "002B;V", "0030..0039;N", "0041..005A;A", "FFF0..1000F;A",
   "1D400..1D454;A"]

/-- The tables that `parse` builds from `sampleLines`. -/
def sampleTables : Tables :=
  { Vary := ⟨[⟨0x2B, 0x2B⟩], []⟩,
    Normal := ⟨[⟨0x30, 0x39⟩], []⟩,
    Alphabetic := ⟨[⟨0x41, 0x5A⟩], [⟨0xFFF0, 0x1000F⟩, ⟨0x1D400, 0x1D454⟩]⟩ }

/-- A line of `MaxScanTokenSize` bytes, all of them the letter x: it is not
empty, does not begin with `#` and has no semicolon. -/
def longLine : String :=
  String.mk (List.replicate 65536 'x')

/-- A comment line of `MaxScanTokenSize` bytes: `#` repeated. -/
def longComment : String :=
  String.mk (List.replicate 65536 '#')

/-- The class tag whose `case` of `getClass` returns the given table. -/
def Class.tag : Class → String
  | .Normal => "N"
  | .Alphabetic => "A"
  | .Binary => "B"
  | .Closing => "C"
  | .Diacritic => "D"
  | .Fence => "F"
  | .Glyph_Part => "G"
  | .Large => "L"
  | .Opening => "O"
  | .Punctuation => "P"
  | .Relation => "R"
  | .Space => "S"
  | .Unary => "U"
  | .Vary => "V"
  | .Special => "X"

/-- The class tags of the `case` labels of `getClass`. -/
def recognizedTags : List String :=
  ["N", "A", "B", "C", "D", "F", "G", "L", "O", "P", "R", "S", "U", "V", "X"]

/-! ## Tables -/

theorem Tables.get_set_same (T : Tables) (c : Class) (t : RangeTable) :
    (T.set c t).get c = t := by
  cases c <;> rfl

theorem Tables.get_set_other (T : Tables) (c d : Class) (t : RangeTable) (h : d ≠ c) :
    (T.set c t).get d = T.get d := by
  cases c <;> cases d <;> first | rfl | exact absurd rfl h

theorem Tables.set_get (T : Tables) (c : Class) : T.set c (T.get c) = T := by
  cases c <;> rfl

theorem Tables.empty_get (c : Class) : Tables.empty.get c = {} := by
  cases c <;> rfl

/-! ## addRange -/

theorem addRange_of_parsedRange (t : RangeTable) (raw : String) (s e : Nat)
    (h : parsedRange raw = some (s, e)) : addRange t raw = (store t s e, none) := by
  unfold parsedRange at h
  unfold addRange store
  by_cases hc : Contains raw ".." = true
  · simp only [hc, if_true] at h ⊢
    split at h
    · rename_i a b hsplit
      cases hs : ParseUint a 16 64 with
      | error err => simp [hs] at h
      | ok s' =>
        cases he : ParseUint b 16 64 with
        | error err => simp [hs, he] at h
        | ok e' =>
          simp only [hs, he, Option.some.injEq, Prod.mk.injEq] at h
          obtain ⟨rfl, rfl⟩ := h
          dsimp only
          split_ifs <;> rfl
    · exact absurd h (by simp)
  · simp only [hc] at h ⊢
    cases hn : ParseUint raw 16 32 with
    | error err => simp [hn] at h
    | ok n =>
      simp only [hn, Option.some.injEq, Prod.mk.injEq] at h
      obtain ⟨rfl, rfl⟩ := h
      simp only [and_self, Bool.false_eq_true, if_false]
      split_ifs <;> rfl

theorem addRange_of_parsedRange_none (raw : String) (h : parsedRange raw = none) :
    ∃ err, ∀ t, addRange t raw = (t, some err) := by
  unfold parsedRange at h
  by_cases hc : Contains raw ".." = true
  · simp only [hc, if_true] at h
    rcases hsp : Split raw ".." with _ | ⟨a, _ | ⟨b, _ | ⟨c, l⟩⟩⟩
    · exact ⟨.errorf ("expected two .. delimited parts in range, got " ++ raw),
        fun t => by simp only [addRange, hc, hsp, if_true]⟩
    · exact ⟨.errorf ("expected two .. delimited parts in range, got " ++ raw),
        fun t => by simp only [addRange, hc, hsp, if_true]⟩
    · simp only [hsp] at h
      cases hs : ParseUint a 16 64 with
      | error err => exact ⟨.withStack err, fun t => by simp only [addRange, hc, hsp, hs, if_true]⟩
      | ok s' =>
        cases he : ParseUint b 16 64 with
        | error err =>
          exact ⟨.withStack err, fun t => by simp only [addRange, hc, hsp, hs, he, if_true]⟩
        | ok e' => simp [hs, he] at h
    · exact ⟨.errorf ("expected two .. delimited parts in range, got " ++ raw),
        fun t => by simp only [addRange, hc, hsp, if_true]⟩
  · simp only [hc] at h
    cases hn : ParseUint raw 16 32 with
    | error err => exact ⟨.withStack err, fun t => by simp only [addRange, hc, hn]; rfl⟩
    | ok n => simp [hn] at h

/-! ## parse, line by line -/

theorem len_replicate (c : Char) (n : Nat) (hc : utf8Size c = 1) :
    len (String.mk (List.replicate n c)) = n := by
  simp [len, List.map_replicate, List.sum_replicate, hc]

theorem parse_cons_tooLong (line : String) (rest : List String) (T : Tables)
    (h : MaxScanTokenSize ≤ len line) : parse (line :: rest) T = (T, .error .ErrTooLong) := by
  rw [parse, if_pos h]

/-- The body of the loop of `parse` at a line that the scanner hands over. -/
theorem parse_cons (line : String) (rest : List String) (T : Tables)
    (h : ¬ MaxScanTokenSize ≤ len line) :
    parse (line :: rest) T =
      if HasPrefix (dropCR line) "#" then parse rest T
      else if len (dropCR line) = 0 then parse rest T
      else
        match Split (dropCR line) ";" with
        | [raw_range, raw_class] =>
          match getClass raw_class with
          | .error v => (T, .panic v)
          | .ok class_ =>
            match addRange (T.get class_) raw_range with
            | (t, some err) => (T.set class_ t, .error err)
            | (t, none) => parse rest (T.set class_ t)
        | _ =>
          (T, .error (.errorf ("expected two semi-colon delimited parts, got " ++
            dropCR line))) := by
  rw [parse, if_neg h]

theorem skipped_iff (line : String) :
    skipped line = true ↔
      ¬ MaxScanTokenSize ≤ len line ∧
        (HasPrefix (dropCR line) "#" = true ∨ len (dropCR line) = 0) := by
  simp [skipped]

theorem not_skipped_iff (line : String) (hlen : ¬ MaxScanTokenSize ≤ len line) :
    ¬ skipped line = true ↔
      ¬ HasPrefix (dropCR line) "#" = true ∧ ¬ len (dropCR line) = 0 := by
  rw [skipped_iff, not_and, not_or]
  exact ⟨fun h => h hlen, fun h _ => h⟩

theorem parse_cons_skipped (line : String) (rest : List String) (T : Tables)
    (h : skipped line = true) : parse (line :: rest) T = parse rest T := by
  rw [skipped_iff] at h
  rw [parse_cons _ _ _ h.1]
  by_cases h1 : HasPrefix (dropCR line) "#" = true
  · simp [h1]
  · have h2 : len (dropCR line) = 0 := h.2.resolve_left h1
    simp [h1, h2]

theorem parsedLine_skipped (line : String) (h : skipped line = true) :
    parsedLine line = none := by
  simp [parsedLine, h]

theorem parsedLine_tooLong (line : String) (h : MaxScanTokenSize ≤ len line) :
    parsedLine line = none := by
  simp [parsedLine, h]

theorem parse_cons_parsed (line : String) (rest : List String) (T : Tables) (e : Record)
    (h : parsedLine line = some e) :
    parse (line :: rest) T = parse rest (T.set e.cls (store (T.get e.cls) e.lo e.hi)) := by
  have hlen : ¬ MaxScanTokenSize ≤ len line :=
    fun hl => by simp [parsedLine_tooLong line hl] at h
  have hs : ¬ skipped line = true := fun hs => by simp [parsedLine_skipped line hs] at h
  unfold parsedLine at h
  rw [if_neg hlen, if_neg hs] at h
  rw [not_skipped_iff _ hlen] at hs
  rw [parse_cons _ _ _ hlen, if_neg hs.1, if_neg hs.2]
  rcases hsp : Split (dropCR line) ";" with _ | ⟨a, _ | ⟨b, _ | ⟨c, l⟩⟩⟩
  · simp [hsp] at h
  · simp [hsp] at h
  · simp only [hsp] at h ⊢
    cases hc : getClass b with
    | error v => simp [hc] at h
    | ok c =>
      cases hr : parsedRange a with
      | none => simp [hc, hr] at h
      | some p =>
        obtain ⟨lo, hi⟩ := p
        simp only [hc, hr, Option.some.injEq] at h
        subst h
        simp only [addRange_of_parsedRange _ _ _ _ hr]
  · simp [hsp] at h

theorem parse_cons_rejected (line : String)
    (hs : ¬ skipped line = true) (h : parsedLine line = none) :
    ∃ o, o ≠ Outcome.ok ∧ ∀ rest T, parse (line :: rest) T = (T, o) := by
  by_cases hlen : MaxScanTokenSize ≤ len line
  · exact ⟨.error .ErrTooLong, by simp, fun rest T => parse_cons_tooLong line rest T hlen⟩
  unfold parsedLine at h
  rw [if_neg hlen, if_neg hs] at h
  rw [not_skipped_iff _ hlen] at hs
  rcases hsp : Split (dropCR line) ";" with _ | ⟨a, _ | ⟨b, _ | ⟨c, l⟩⟩⟩
  · exact ⟨.error (.errorf ("expected two semi-colon delimited parts, got " ++ dropCR line)),
      by simp, fun rest T => by rw [parse_cons _ _ _ hlen, if_neg hs.1, if_neg hs.2, hsp]⟩
  · exact ⟨.error (.errorf ("expected two semi-colon delimited parts, got " ++ dropCR line)),
      by simp, fun rest T => by rw [parse_cons _ _ _ hlen, if_neg hs.1, if_neg hs.2, hsp]⟩
  · simp only [hsp] at h
    cases hc : getClass b with
    | error v => exact ⟨.panic v, by simp, fun rest T => by
        rw [parse_cons _ _ _ hlen, if_neg hs.1, if_neg hs.2, hsp]; simp only [hc]⟩
    | ok c =>
      cases hr : parsedRange a with
      | some p => simp [hc, hr] at h
      | none =>
        obtain ⟨err, herr⟩ := addRange_of_parsedRange_none a hr
        exact ⟨.error err, by simp, fun rest T => by
          rw [parse_cons _ _ _ hlen, if_neg hs.1, if_neg hs.2, hsp]
          simp only [hc, herr, Tables.set_get]⟩
  · exact ⟨.error (.errorf ("expected two semi-colon delimited parts, got " ++ dropCR line)),
      by simp, fun rest T => by rw [parse_cons _ _ _ hlen, if_neg hs.1, if_neg hs.2, hsp]⟩

/-- A run that returns `nil` over a first part of the lines continues on the
rest from the state it reached. -/
theorem parse_append (pre rest : List String) (T0 T1 : Tables)
    (h : parse pre T0 = (T1, .ok)) : parse (pre ++ rest) T0 = parse rest T1 := by
  induction pre generalizing T0 with
  | nil =>
    simp only [parse, Prod.mk.injEq, and_true] at h
    subst h
    rfl
  | cons text pre ih =>
    by_cases hs : skipped text = true
    · rw [List.cons_append, parse_cons_skipped _ _ _ hs]
      rw [parse_cons_skipped _ _ _ hs] at h
      exact ih T0 h
    · cases hp : parsedLine text with
      | none =>
        obtain ⟨o, ho, hpo⟩ := parse_cons_rejected text hs hp
        rw [hpo] at h
        simp only [Prod.mk.injEq] at h
        exact absurd h.2 ho
      | some e =>
        rw [List.cons_append, parse_cons_parsed _ _ _ _ hp]
        rw [parse_cons_parsed _ _ _ _ hp] at h
        exact ih _ h

/-- A run that does not return `nil` stopped at some line: the lines before
it were processed to the end, and the tables are in the state they reached. -/
theorem parse_stops (lines : List String) (T0 T : Tables) (o : Outcome)
    (h : parse lines T0 = (T, o)) (ho : o ≠ .ok) :
    ∃ pre text post, lines = pre ++ text :: post ∧ parse pre T0 = (T, .ok) ∧
      skipped text = false ∧ parsedLine text = none ∧
      ∀ post', parse (pre ++ text :: post') T0 = (T, o) := by
  induction lines generalizing T0 with
  | nil =>
    simp only [parse, Prod.mk.injEq] at h
    exact absurd h.2.symm ho
  | cons text rest ih =>
    by_cases hs : skipped text = true
    · rw [parse_cons_skipped _ _ _ hs] at h
      obtain ⟨pre, t, post, hl, hpre, hsk, hpl, hall⟩ := ih T0 h
      refine ⟨text :: pre, t, post, by simp [hl], ?_, hsk, hpl, ?_⟩
      · rw [parse_cons_skipped _ _ _ hs]
        exact hpre
      · intro post'
        rw [List.cons_append, parse_cons_skipped _ _ _ hs]
        exact hall post'
    · cases hp : parsedLine text with
      | none =>
        obtain ⟨o', ho', hpo⟩ := parse_cons_rejected text hs hp
        rw [hpo] at h
        simp only [Prod.mk.injEq] at h
        obtain ⟨rfl, rfl⟩ := h
        exact ⟨[], text, rest, rfl, rfl, by simpa using hs, hp, fun post' => hpo post' T0⟩
      | some e =>
        rw [parse_cons_parsed _ _ _ _ hp] at h
        obtain ⟨pre, t, post, hl, hpre, hsk, hpl, hall⟩ := ih _ h
        refine ⟨text :: pre, t, post, by simp [hl], ?_, hsk, hpl, ?_⟩
        · rw [parse_cons_parsed _ _ _ _ hp]
          exact hpre
        · intro post'
          rw [List.cons_append, parse_cons_parsed _ _ _ _ hp]
          exact hall post'

theorem build_cons (e : Record) (es : List Record) (T : Tables) :
    build (e :: es) T = build es (T.set e.cls (store (T.get e.cls) e.lo e.hi)) := rfl

theorem build_append (es fs : List Record) (T : Tables) :
    build (es ++ fs) T = build fs (build es T) := by
  simp [build, List.foldl_append]

/-- A run that returns `nil` stored the records of its lines, in order. -/
theorem parse_ok_build (lines : List String) (T0 T : Tables)
    (h : parse lines T0 = (T, .ok)) : T = build (records lines) T0 := by
  induction lines generalizing T0 with
  | nil =>
    simp only [parse, Prod.mk.injEq, and_true] at h
    subst h
    rfl
  | cons text rest ih =>
    by_cases hs : skipped text = true
    · rw [parse_cons_skipped _ _ _ hs] at h
      simp only [records, List.filterMap_cons, parsedLine_skipped text hs]
      exact ih T0 h
    · cases hp : parsedLine text with
      | none =>
        obtain ⟨o, ho, hpo⟩ := parse_cons_rejected text hs hp
        rw [hpo] at h
        simp only [Prod.mk.injEq] at h
        exact absurd h.2 ho
      | some e =>
        rw [parse_cons_parsed _ _ _ _ hp] at h
        simp only [records, List.filterMap_cons, hp]
        exact ih _ h

theorem getClass_unrecognized (s : String) (h : s ∉ recognizedTags) :
    getClass s = .error ⟨"support for class %q not yet implemented", s⟩ := by
  simp only [recognizedTags, List.mem_cons, List.mem_singleton, not_or, List.mem_nil_iff,
    not_false_eq_true, and_true] at h
  obtain ⟨h1, h2, h3, h4, h5, h6, h7, h8, h9, h10, h11, h12, h13, h14, h15⟩ := h
  simp only [getClass, h1, h2, h3, h4, h5, h6, h7, h8, h9, h10, h11, h12, h13, h14, h15,
    if_false]

theorem len_eq_zero_iff (text : String) : len text = 0 ↔ text = "" := by
  constructor
  · intro h
    cases hd : text.data with
    | nil => exact String.ext hd
    | cons c l =>
      have hc : 1 ≤ utf8Size c := by
        unfold utf8Size
        split_ifs <;> omega
      simp only [len, hd, List.map_cons, List.sum_cons] at h
      omega
  · rintro rfl
    rfl

/-! ## strings.Split and strings.Contains -/

theorem splitChars_ne_nil (sep s : List Char) (k : Nat) : splitChars sep s k ≠ [] := by
  induction s generalizing k with
  | nil => simp [splitChars]
  | cons c rest ih =>
    cases k with
    | succ k => simpa [splitChars] using ih k
    | zero =>
      rw [splitChars]
      split_ifs
      · simp
      · cases h : splitChars sep rest 0 <;> simp [consHead]

theorem splitChars_skip (sep s : List Char) (k : Nat) (hk : k ≤ s.length) :
    splitChars sep s k = splitChars sep (s.drop k) 0 := by
  induction s generalizing k with
  | nil =>
    cases k <;> simp [splitChars]
  | cons c rest ih =>
    cases k with
    | zero => rfl
    | succ k =>
      rw [splitChars, List.drop_succ_cons]
      exact ih k (by simpa using hk)

theorem joinChars_consHead (sep : List Char) (c : Char) (l : List (List Char)) (hl : l ≠ []) :
    joinChars sep (consHead c l) = c :: joinChars sep l := by
  match l, hl with
  | [x], _ => rfl
  | x :: y :: rest, _ => rfl

theorem joinChars_nil_cons (sep : List Char) (l : List (List Char)) (hl : l ≠ []) :
    joinChars sep ([] :: l) = sep ++ joinChars sep l := by
  match l, hl with
  | [x], _ => simp [joinChars]
  | x :: y :: rest, _ => simp [joinChars]

/-- Joining the fields of a split with the separator gives the string back. -/
theorem joinChars_splitChars (sep : List Char) (hsep : sep ≠ []) (n : Nat) :
    ∀ s : List Char, s.length ≤ n → joinChars sep (splitChars sep s 0) = s := by
  induction n with
  | zero =>
    intro s hs
    have : s = [] := List.length_eq_zero.mp (Nat.le_zero.mp hs)
    subst this
    rfl
  | succ n ih =>
    intro s hs
    cases s with
    | nil => rfl
    | cons c rest =>
      rw [splitChars]
      split_ifs with hp
      · rw [List.isPrefixOf_iff_prefix] at hp
        obtain ⟨t, ht⟩ := hp
        cases sep with
        | nil => exact absurd rfl hsep
        | cons c' sep' =>
          simp only [List.cons_append, List.cons.injEq] at ht
          obtain ⟨rfl, hrest⟩ := ht
          have hlen : sep'.length ≤ rest.length := by
            rw [← hrest]
            simp
          have hdrop : rest.drop sep'.length = t := by
            rw [← hrest]
            simp
          rw [joinChars_nil_cons _ _ (splitChars_ne_nil _ _ _)]
          simp only [List.length_cons, Nat.add_sub_cancel]
          rw [splitChars_skip _ _ _ hlen, hdrop, ih t ?_, List.cons_append, hrest]
          have : t.length ≤ rest.length := by
            rw [← hrest]
            simp
          simp only [List.length_cons] at hs
          omega
      · rw [joinChars_consHead _ _ _ (splitChars_ne_nil _ _ _), ih rest ?_]
        simp only [List.length_cons] at hs
        omega

/-- A string that `Split` cuts into two fields is the first field, the
separator and the second field. -/
theorem eq_append_of_Split (s sep a b : String) (hsep : sep ≠ "") (h : Split s sep = [a, b]) :
    s = a ++ sep ++ b := by
  have hsep' : sep.data ≠ [] := fun hd => hsep (String.ext hd)
  have hj := joinChars_splitChars sep.data hsep' s.data.length s.data (le_refl _)
  unfold Split at h
  rcases hsp : splitChars sep.data s.data 0 with _ | ⟨x, _ | ⟨y, _ | ⟨z, l⟩⟩⟩
  · simp [hsp] at h
  · simp [hsp] at h
  · rw [hsp] at h hj
    simp only [List.map_cons, List.map_nil, List.cons.injEq, and_true] at h
    obtain ⟨rfl, rfl⟩ := h
    apply String.ext
    simp only [String.data_append]
    exact hj.symm
  · simp [hsp] at h

theorem containsChars_append (sub a b : List Char) :
    containsChars sub (a ++ sub ++ b) = true := by
  induction a with
  | nil =>
    have hp : sub.isPrefixOf (sub ++ b) = true := by
      rw [List.isPrefixOf_iff_prefix]
      exact List.prefix_append _ _
    cases hsb : sub ++ b with
    | nil =>
      rw [hsb] at hp
      simpa [containsChars, hsb] using hp
    | cons c rest =>
      rw [hsb] at hp
      simp [containsChars, hsb, hp]
  | cons c a ih =>
    simp only [List.cons_append, containsChars, Bool.or_eq_true]
    right
    simpa using ih

theorem Contains_append (a sub b : String) : Contains (a ++ sub ++ b) sub = true := by
  simp only [Contains, String.data_append]
  exact containsChars_append _ _ _

/-! ## strconv.ParseUint accepts hexadecimal digits only -/

theorem le_lower (c : Nat) : c ≤ lower c := by
  apply Nat.le_of_testBit
  intro i hi
  simp [lower, Nat.testBit_or, hi]

theorem lower_hex_small : ∀ c < 128, 97 ≤ lower c → lower c ≤ 102 →
    (97 ≤ c ∧ c ≤ 102) ∨ (65 ≤ c ∧ c ≤ 70) := by
  decide

theorem lower_hex (c : Nat) (h1 : 97 ≤ lower c) (h2 : lower c ≤ 102) :
    (97 ≤ c ∧ c ≤ 102) ∨ (65 ≤ c ∧ c ≤ 70) :=
  lower_hex_small c (by have := le_lower c; omega) h1 h2

theorem parseUintLoop_hex (cutoff maxVal : Nat) (l : List Char) (n v : Nat)
    (h : parseUintLoop 16 cutoff maxVal l n = .ok v) : ∀ c ∈ l, isHexDigit c = true := by
  induction l generalizing n with
  | nil => simp
  | cons ch rest ih =>
    rw [parseUintLoop] at h
    simp only at h
    intro c hc
    rw [List.mem_cons] at hc
    split_ifs at h with hd _ _ _ hl _ _ _
    · rcases hc with rfl | hc
      · simp [isHexDigit, hd.1, hd.2]
      · exact ih _ h c hc
    · rcases hc with rfl | hc
      · have hl2 : lower c.toNat ≤ 102 := by omega
        rcases lower_hex _ hl.1 hl2 with ⟨h1, h2⟩ | ⟨h1, h2⟩
        · simp [isHexDigit, h1, h2]
        · simp [isHexDigit, h1, h2]
      · exact ih _ h c hc

theorem ParseUint_hex (s : String) (bitSize n : Nat) (h : ParseUint s 16 bitSize = .ok n) :
    IsHexLiteral s := by
  unfold ParseUint at h
  split_ifs at h with he
  refine ⟨he, ?_⟩
  simp only at h
  split at h
  · rename_i v hv
    exact parseUintLoop_hex _ _ _ _ _ hv
  · exact absurd h (by simp)

/-! ## unicode.Is: the two searches -/

theorem isLinear_sound (l : List Range) (r : Nat) (h : isLinear l r = true) :
    ∃ x ∈ l, x.Holds r := by
  induction l with
  | nil => simp [isLinear] at h
  | cons x rest ih =>
    rw [isLinear] at h
    split_ifs at h with h1 h2
    · exact ⟨x, List.mem_cons_self _ _, Nat.le_of_not_lt h1, h2⟩
    · obtain ⟨y, hy, hh⟩ := ih h
      exact ⟨y, List.mem_cons_of_mem _ hy, hh⟩

theorem isLinear_complete (l : List Range) (r : Nat) (hasc : Ascending l)
    (hle : ∀ x ∈ l, x.Lo ≤ x.Hi) (x : Range) (hx : x ∈ l) (hr : x.Holds r) :
    isLinear l r = true := by
  induction l with
  | nil => simp at hx
  | cons y rest ih =>
    rw [isLinear]
    unfold Ascending at hasc
    rw [List.pairwise_cons] at hasc
    rcases List.mem_cons.mp hx with rfl | hmem
    · have h1 : ¬ r < x.Lo := Nat.not_lt.mpr hr.1
      simp [h1, hr.2]
    · have hyx := hasc.1 x hmem
      have hy := hle y (List.mem_cons_self _ _)
      have h1 : ¬ r < y.Lo := by
        have := hr.1
        omega
      have h2 : ¬ r ≤ y.Hi := by
        have := hr.1
        omega
      simp only [h1, h2, if_false]
      exact ih hasc.2 (fun z hz => hle z (List.mem_cons_of_mem _ hz)) hmem

theorem isBinary_sound (l : List Range) (r : Nat) (n : Nat) :
    ∀ lo hi, hi - lo ≤ n → isBinary l r lo hi = true → ∃ x ∈ l, x.Holds r := by
  induction n with
  | zero =>
    intro lo hi hn h
    rw [isBinary] at h
    have : ¬ lo < hi := by omega
    simp [this] at h
  | succ n ih =>
    intro lo hi hn h
    rw [isBinary] at h
    split_ifs at h with hlt
    simp only at h
    cases hm : l[(lo + hi) / 2]? with
    | none => simp [hm] at h
    | some x =>
      simp only [hm] at h
      split_ifs at h with h1 h2
      · exact ⟨x, List.getElem?_mem hm, h1⟩
      · exact ih lo _ (by omega) h
      · exact ih _ hi (by omega) h

theorem isBinary_complete (l : List Range) (r : Nat) (hasc : Ascending l)
    (hle : ∀ x ∈ l, x.Lo ≤ x.Hi) (n : Nat) :
    ∀ lo hi, hi - lo ≤ n → hi ≤ l.length →
      ∀ i x, lo ≤ i → i < hi → l[i]? = some x → x.Holds r → isBinary l r lo hi = true := by
  induction n with
  | zero =>
    intro lo hi hn _ i x h1 h2
    omega
  | succ n ih =>
    intro lo hi hn hlen i x hlo hhi hix hr
    rw [isBinary]
    have hlt : lo < hi := by omega
    simp only [hlt, dite_true]
    have hmlt : (lo + hi) / 2 < l.length := by omega
    have hm : l[(lo + hi) / 2]? = some l[(lo + hi) / 2] := List.getElem?_eq_getElem hmlt
    simp only [hm]
    obtain ⟨hil, rfl⟩ := List.getElem?_eq_some.mp hix
    unfold Ascending at hasc
    rw [List.pairwise_iff_getElem] at hasc
    have hmle := hle l[(lo + hi) / 2] (List.getElem_mem _)
    have hile := hle l[i] (List.getElem_mem _)
    by_cases hin : l[(lo + hi) / 2].Lo ≤ r ∧ r ≤ l[(lo + hi) / 2].Hi
    · simp [hin]
    · simp only [hin, if_false]
      by_cases hless : r < l[(lo + hi) / 2].Lo
      · simp only [hless, if_true]
        have him : i < (lo + hi) / 2 := by
          by_contra hcon
          rcases Nat.lt_or_ge ((lo + hi) / 2) i with hgt | hge
          · have := hasc _ _ hmlt hil hgt
            have := hr.1
            omega
          · have heq : i = (lo + hi) / 2 := by omega
            subst heq
            have := hr.1
            omega
        exact ih lo _ (by omega) (by omega) i l[i] hlo him hix hr
      · simp only [hless, if_false]
        have him : (lo + hi) / 2 < i := by
          by_contra hcon
          rcases Nat.lt_or_ge i ((lo + hi) / 2) with hgt | hge
          · have := hasc _ _ hil hmlt hgt
            have := hr.2
            omega
          · have heq : i = (lo + hi) / 2 := by omega
            subst heq
            exact hin ⟨hr.1, hr.2⟩
        exact ih _ hi (by omega) hlen i l[i] (by omega) hhi hix hr

theorem is16_sound (l : List Range) (r : Nat) (h : is16 l r = true) : ∃ x ∈ l, x.Holds r := by
  unfold is16 at h
  split_ifs at h
  · exact isLinear_sound l r h
  · exact isBinary_sound l r _ _ _ (le_refl _) h

theorem is32_sound (l : List Range) (r : Nat) (h : is32 l r = true) : ∃ x ∈ l, x.Holds r := by
  unfold is32 at h
  split_ifs at h
  · exact isLinear_sound l r h
  · exact isBinary_sound l r _ _ _ (le_refl _) h

theorem is16_complete (l : List Range) (r : Nat) (hasc : Ascending l)
    (hle : ∀ x ∈ l, x.Lo ≤ x.Hi) (x : Range) (hx : x ∈ l) (hr : x.Holds r) :
    is16 l r = true := by
  unfold is16
  split_ifs
  · exact isLinear_complete l r hasc hle x hx hr
  · obtain ⟨i, hi⟩ := List.mem_iff_getElem?.mp hx
    have hil : i < l.length := (List.getElem?_eq_some.mp hi).1
    exact isBinary_complete l r hasc hle _ 0 l.length (le_refl _) (le_refl _) i x
      (Nat.zero_le _) hil hi hr

theorem is32_complete (l : List Range) (r : Nat) (hasc : Ascending l)
    (hle : ∀ x ∈ l, x.Lo ≤ x.Hi) (x : Range) (hx : x ∈ l) (hr : x.Holds r) :
    is32 l r = true := by
  unfold is32
  split_ifs
  · exact isLinear_complete l r hasc hle x hx hr
  · obtain ⟨i, hi⟩ := List.mem_iff_getElem?.mp hx
    have hil : i < l.length := (List.getElem?_eq_some.mp hi).1
    exact isBinary_complete l r hasc hle _ 0 l.length (le_refl _) (le_refl _) i x
      (Nat.zero_le _) hil hi hr

/-! ## unicode.Is -/

/-- `Is` answers `true` only for a rune that a stored range holds. -/
theorem Is_sound (t : RangeTable) (r : Nat) (h16 : ∀ x ∈ t.R16, x.Hi < 2 ^ 16)
    (hr : r < 2 ^ 32) (h : Is t r = true) : ∃ x ∈ t.R16 ++ t.R32, x.Holds r := by
  have hmod : r % 2 ^ 32 = r := Nat.mod_eq_of_lt hr
  unfold Is at h
  simp only [hmod] at h
  split_ifs at h with c1 c2
  · cases hl : t.R16.getLast? with
    | none => simp [hl] at c1
    | some last =>
      simp only [hl, decide_eq_true_eq] at c1
      have hlast := h16 last (List.mem_of_getLast?_eq_some hl)
      have hmod16 : r % 2 ^ 16 = r := Nat.mod_eq_of_lt (by omega)
      rw [hmod16] at h
      obtain ⟨x, hx, hh⟩ := is16_sound _ _ h
      exact ⟨x, List.mem_append.mpr (Or.inl hx), hh⟩
  · obtain ⟨x, hx, hh⟩ := is32_sound _ _ h
    exact ⟨x, List.mem_append.mpr (Or.inr hx), hh⟩

theorem Ascending.le_last (l : List Range) (hasc : Ascending l) (hle : ∀ x ∈ l, x.Lo ≤ x.Hi)
    (last : Range) (hl : l.getLast? = some last) (x : Range) (hx : x ∈ l) :
    x.Hi ≤ last.Hi := by
  obtain ⟨ys, rfl⟩ := List.getLast?_eq_some_iff.mp hl
  unfold Ascending at hasc
  rw [List.pairwise_append] at hasc
  rcases List.mem_append.mp hx with h | h
  · have := hasc.2.2 x h last (List.mem_singleton_self _)
    have := hle last (List.mem_append.mpr (Or.inr (List.mem_singleton_self _)))
    omega
  · rw [List.mem_singleton] at h
    subst h
    exact le_refl _

theorem Ascending.first_le (l : List Range) (hasc : Ascending l)
    (hle : ∀ x ∈ l, x.Lo ≤ x.Hi) (first : Range) (hf : l.head? = some first) (x : Range)
    (hx : x ∈ l) : first.Lo ≤ x.Lo := by
  cases l with
  | nil => simp at hf
  | cons y rest =>
    simp only [List.head?_cons, Option.some.injEq] at hf
    subst hf
    unfold Ascending at hasc
    rw [List.pairwise_cons] at hasc
    rcases List.mem_cons.mp hx with rfl | h
    · exact le_refl _
    · have := hasc.1 x h
      have := hle y (List.mem_cons_self _ _)
      omega

/-- On a table whose two lists are ascending, with the 16-bit ranges below
`2 ^ 16` and below every 32-bit range, `Is` answers `true` for every rune that
a stored range holds. -/
theorem Is_complete (t : RangeTable) (r : Nat)
    (hasc16 : Ascending t.R16) (hasc32 : Ascending t.R32)
    (hle : ∀ x ∈ t.R16 ++ t.R32, x.Lo ≤ x.Hi)
    (h16 : ∀ x ∈ t.R16, x.Hi < 2 ^ 16) (h32 : ∀ y ∈ t.R32, y.Hi < 2 ^ 31)
    (hsep : ∀ x ∈ t.R16, ∀ y ∈ t.R32, x.Hi < y.Lo)
    (x : Range) (hx : x ∈ t.R16 ++ t.R32) (hr : x.Holds r) : Is t r = true := by
  have hle16 : ∀ x ∈ t.R16, x.Lo ≤ x.Hi := fun x hx => hle x (List.mem_append.mpr (Or.inl hx))
  have hle32 : ∀ x ∈ t.R32, x.Lo ≤ x.Hi := fun x hx => hle x (List.mem_append.mpr (Or.inr hx))
  unfold Is
  rcases List.mem_append.mp hx with hx16 | hx32
  · have hxhi := h16 x hx16
    have hmod : r % 2 ^ 32 = r := Nat.mod_eq_of_lt (by have := hr.2; omega)
    have hmod16 : r % 2 ^ 16 = r := Nat.mod_eq_of_lt (by have := hr.2; omega)
    cases hl : t.R16.getLast? with
    | none =>
      rw [List.getLast?_eq_none_iff] at hl
      rw [hl] at hx16
      simp at hx16
    | some last =>
      have := Ascending.le_last _ hasc16 hle16 last hl x hx16
      have hc : r ≤ last.Hi := le_trans hr.2 this
      simp only [hl, hmod, hmod16, hc, decide_True, if_true]
      exact is16_complete _ _ hasc16 hle16 x hx16 hr
  · have hxhi := h32 x hx32
    have hmod : r % 2 ^ 32 = r := Nat.mod_eq_of_lt (by have := hr.2; omega)
    have hc1 : (match t.R16.getLast? with
        | some last => decide (r % 2 ^ 32 ≤ last.Hi)
        | none => false) = false := by
      cases hl : t.R16.getLast? with
      | none => rfl
      | some last =>
        have := hsep last (List.mem_of_getLast?_eq_some hl) x hx32
        have := hr.1
        simp only [hmod, decide_eq_false_iff_not, not_le]
        omega
    simp only [hc1, Bool.false_eq_true, if_false]
    cases hf : t.R32.head? with
    | none =>
      rw [List.head?_eq_none_iff] at hf
      rw [hf] at hx32
      simp at hx32
    | some first =>
      have hfx := Ascending.first_le _ hasc32 hle32 first hf x hx32
      have hfmem : first ∈ t.R32 := List.mem_of_mem_head? hf
      have hflt : first.Lo < 2 ^ 31 := by
        have := hr.1
        have := hr.2
        omega
      have hfmod : first.Lo % 2 ^ 32 = first.Lo := Nat.mod_eq_of_lt (by omega)
      have hrune : toRune first.Lo = (first.Lo : Int) := by
        unfold toRune
        rw [hfmod, if_pos hflt]
      have hc2 : (r : Int) ≥ toRune first.Lo := by
        rw [hrune]
        have := hr.1
        omega
      simp only [hf, hc2, decide_True, if_true, hmod]
      exact is32_complete _ _ hasc32 hle32 x hx32 hr

/-! ## The tables that parse builds -/

theorem storeAll_eq (t : RangeTable) (l : List Record)
    (hb : ∀ e ∈ l, e.lo < 2 ^ 32 ∧ e.hi < 2 ^ 32) :
    storeAll t l =
      ⟨t.R16 ++ (l.filter Record.fits16).map Record.range,
       t.R32 ++ (l.filter (fun e => !e.fits16)).map Record.range⟩ := by
  induction l generalizing t with
  | nil => simp [storeAll]
  | cons e rest ih =>
    have hstep : storeAll t (e :: rest) = storeAll (store t e.lo e.hi) rest := rfl
    rw [hstep, ih _ (fun e' he' => hb e' (List.mem_cons_of_mem _ he'))]
    obtain ⟨h1, h2⟩ := hb e (List.mem_cons_self _ _)
    by_cases hfit : e.lo ≤ MaxUint16 ∧ e.hi ≤ MaxUint16
    · have hf : e.fits16 = true := by simp [Record.fits16, hfit]
      have hm1 : e.lo % 2 ^ 16 = e.lo := Nat.mod_eq_of_lt (by
        have := hfit.1
        simp only [MaxUint16] at this
        omega)
      have hm2 : e.hi % 2 ^ 16 = e.hi := Nat.mod_eq_of_lt (by
        have := hfit.2
        simp only [MaxUint16] at this
        omega)
      have hst : store t e.lo e.hi = ⟨t.R16 ++ [e.range], t.R32⟩ := by
        rw [store, if_pos hfit, hm1, hm2]
        rfl
      have hnf : (!e.fits16) = false := by simp [hf]
      rw [hst, List.filter_cons, if_pos hf, List.filter_cons, hnf]
      simp
    · have hf : e.fits16 = false := by simp [Record.fits16, hfit]
      have hm1 : e.lo % 2 ^ 32 = e.lo := Nat.mod_eq_of_lt h1
      have hm2 : e.hi % 2 ^ 32 = e.hi := Nat.mod_eq_of_lt h2
      have hst : store t e.lo e.hi = ⟨t.R16, t.R32 ++ [e.range]⟩ := by
        rw [store, if_neg hfit, hm1, hm2]
        rfl
      have hnf : (!e.fits16) = true := by simp [hf]
      rw [hst, List.filter_cons, hf, List.filter_cons, if_pos hnf]
      simp

theorem build_get (es : List Record) (T : Tables) (c : Class) :
    (build es T).get c = storeAll (T.get c) (es.filter (fun e => decide (e.cls = c))) := by
  induction es generalizing T with
  | nil => rfl
  | cons e rest ih =>
    rw [build_cons, ih]
    by_cases hc : e.cls = c
    · subst hc
      simp only [Tables.get_set_same, List.filter_cons, decide_True, if_true]
      rfl
    · have hc' : c ≠ e.cls := fun h => hc h.symm
      simp only [Tables.get_set_other _ _ _ _ hc', List.filter_cons, hc, decide_False,
        Bool.false_eq_true, if_false]

/-- The two lists of a class after a run that returned `nil` from empty
tables, when every parsed bound fits 32 bits: the ranges of the records of
that class, in the order of the lines, those with both bounds at most
`0xFFFF` in the 16-bit list and the others in the 32-bit list. -/
theorem parse_tables (lines : List String) (T : Tables)
    (hbuild : parse lines Tables.empty = (T, .ok))
    (hb : ∀ e ∈ records lines, e.lo < 2 ^ 32 ∧ e.hi < 2 ^ 32) (c : Class) :
    (T.get c).R16 =
      (((records lines).filter (fun e => decide (e.cls = c))).filter Record.fits16).map
        Record.range ∧
    (T.get c).R32 =
      (((records lines).filter (fun e => decide (e.cls = c))).filter
        (fun e => !e.fits16)).map Record.range := by
  have hT := parse_ok_build lines _ _ hbuild
  subst hT
  rw [build_get, Tables.empty_get, storeAll_eq]
  · simp
  · intro e he
    exact hb e (List.mem_of_mem_filter he)

/-- After such a run, a rune for which `Is` answers `true` on the table of a
class is covered by a record of that class. -/
theorem parse_Is_sound (lines : List String) (T : Tables)
    (hbuild : parse lines Tables.empty = (T, .ok))
    (hb : ∀ e ∈ records lines, e.lo < 2 ^ 32 ∧ e.hi < 2 ^ 32) (c : Class) (r : Nat)
    (hr : r < 2 ^ 32) (h : Is (T.get c) r = true) :
    ∃ e ∈ records lines, e.cls = c ∧ e.Covers r := by
  obtain ⟨h16, h32⟩ := parse_tables lines T hbuild hb c
  have hhi : ∀ x ∈ (T.get c).R16, x.Hi < 2 ^ 16 := by
    intro x hx
    rw [h16] at hx
    obtain ⟨e, he, rfl⟩ := List.mem_map.mp hx
    have hf := (List.mem_filter.mp he).2
    simp only [Record.fits16, MaxUint16, decide_eq_true_eq] at hf
    show e.hi < 2 ^ 16
    omega
  obtain ⟨x, hx, hh⟩ := Is_sound _ r hhi hr h
  rw [h16, h32] at hx
  rcases List.mem_append.mp hx with hx | hx
  · obtain ⟨e, he, rfl⟩ := List.mem_map.mp hx
    have he' := (List.mem_filter.mp he).1
    have hcls := (List.mem_filter.mp he').2
    exact ⟨e, (List.mem_filter.mp he').1, by simpa using hcls, hh⟩
  · obtain ⟨e, he, rfl⟩ := List.mem_map.mp hx
    have he' := (List.mem_filter.mp he).1
    have hcls := (List.mem_filter.mp he').2
    exact ⟨e, (List.mem_filter.mp he').1, by simpa using hcls, hh⟩

theorem mem_records (lines : List String) (text : String) (e : Record)
    (hmem : text ∈ lines) (hline : parsedLine text = some e) : e ∈ records lines :=
  List.mem_filterMap.mpr ⟨text, hmem, hline⟩

/-- After a run that returned `nil` from empty tables on lines whose records
have `lo ≤ hi ≤ 0x10FFFF` and are ascending and non-overlapping within each
class, `Is` answers `true` on the table of a record for every code point that
the record covers. -/
theorem parse_Is_complete (lines : List String) (T : Tables)
    (hbuild : parse lines Tables.empty = (T, .ok))
    (hcp : ∀ e ∈ records lines, e.lo ≤ e.hi ∧ e.hi ≤ 0x10FFFF)
    (hsorted : ∀ c, ((records lines).filter (fun e => decide (e.cls = c))).Pairwise
      (fun a b => a.hi < b.lo))
    (e : Record) (he : e ∈ records lines) (cp : Nat) (hcov : e.Covers cp) :
    Is (T.get e.cls) cp = true := by
  have hb : ∀ e ∈ records lines, e.lo < 2 ^ 32 ∧ e.hi < 2 ^ 32 := by
    intro a ha
    have := hcp a ha
    omega
  obtain ⟨h16, h32⟩ := parse_tables lines T hbuild hb e.cls
  have hpw := hsorted e.cls
  generalize hes : (records lines).filter (fun a => decide (a.cls = e.cls)) = es at h16 h32 hpw
  have hsub : ∀ a ∈ es, a ∈ records lines := by
    intro a ha
    rw [← hes] at ha
    exact List.mem_of_mem_filter ha
  have hees : e ∈ es := by
    rw [← hes]
    exact List.mem_filter.mpr ⟨he, by simp⟩
  apply Is_complete (T.get e.cls) cp _ _ _ _ _ _ e.range
  · rw [h16, h32]
    by_cases hf : e.fits16 = true
    · exact List.mem_append.mpr (Or.inl (List.mem_map.mpr ⟨e, List.mem_filter.mpr ⟨hees, hf⟩, rfl⟩))
    · exact List.mem_append.mpr
        (Or.inr (List.mem_map.mpr ⟨e, List.mem_filter.mpr ⟨hees, by simpa using hf⟩, rfl⟩))
  · exact hcov
  · rw [h16]
    exact (hpw.filter _).map _ (fun a b hab => hab)
  · rw [h32]
    exact (hpw.filter _).map _ (fun a b hab => hab)
  · intro x hx
    rw [h16, h32] at hx
    rcases List.mem_append.mp hx with hx | hx
    · obtain ⟨a, ha, rfl⟩ := List.mem_map.mp hx
      exact (hcp a (hsub a (List.mem_of_mem_filter ha))).1
    · obtain ⟨a, ha, rfl⟩ := List.mem_map.mp hx
      exact (hcp a (hsub a (List.mem_of_mem_filter ha))).1
  · intro x hx
    rw [h16] at hx
    obtain ⟨a, ha, rfl⟩ := List.mem_map.mp hx
    have hf := (List.mem_filter.mp ha).2
    simp only [Record.fits16, MaxUint16, decide_eq_true_eq] at hf
    show a.hi < 2 ^ 16
    omega
  · intro y hy
    rw [h32] at hy
    obtain ⟨b, hb', rfl⟩ := List.mem_map.mp hy
    have := (hcp b (hsub b (List.mem_of_mem_filter hb'))).2
    show b.hi < 2 ^ 31
    omega
  · intro x hx y hy
    rw [h16] at hx
    rw [h32] at hy
    obtain ⟨a, ha, rfl⟩ := List.mem_map.mp hx
    obtain ⟨b, hb', rfl⟩ := List.mem_map.mp hy
    obtain ⟨haes, haf⟩ := List.mem_filter.mp ha
    obtain ⟨hbes, hbf⟩ := List.mem_filter.mp hb'
    have hne : a ≠ b := by
      rintro rfl
      simp [haf] at hbf
    have hsym : es.Pairwise (fun a b => a.hi < b.lo ∨ b.hi < a.lo) :=
      hpw.imp (fun h => Or.inl h)
    have hor := hsym.forall (fun a b h => h.symm) haes hbes hne
    simp only [Record.fits16, MaxUint16, decide_eq_true_eq, Bool.not_eq_true',
      decide_eq_false_iff_not] at haf hbf
    have hble := (hcp b (hsub b hbes)).1
    have hale := (hcp a (hsub a haes)).1
    show a.hi < b.lo
    rcases hor with h | h
    · exact h
    · exfalso
      apply hbf
      omega

/-- The first class of a list that satisfies a test which only `c` can
satisfy is `c`. -/
theorem find?_unique (l : List Class) (p : Class → Bool) (c : Class) (hc : c ∈ l)
    (hp : p c = true) (huniq : ∀ d, p d = true → d = c) : l.find? p = some c := by
  cases h : l.find? p with
  | none =>
    rw [List.find?_eq_none] at h
    exact absurd hp (h c hc)
  | some d =>
    rw [huniq d (List.find?_some h)]

theorem mem_classes (c : Class) : c ∈ classes := by
  cases c <;> simp [classes]

/-! ## Behaviour of addRange and parse -/

/-- The ranges of a table, of both lists. -/
theorem store_ranges (t : RangeTable) (lo hi : Nat) (r : Range)
    (h : r ∈ (store t lo hi).R16 ++ (store t lo hi).R32) :
    r ∈ t.R16 ++ t.R32 ∨
      (lo ≤ MaxUint16 ∧ hi ≤ MaxUint16 ∧ r = ⟨lo % 2 ^ 16, hi % 2 ^ 16⟩) ∨
      (¬ (lo ≤ MaxUint16 ∧ hi ≤ MaxUint16) ∧ r = ⟨lo % 2 ^ 32, hi % 2 ^ 32⟩) := by
  unfold store at h
  split_ifs at h with hfit
  · simp only [List.append_assoc, List.mem_append, List.mem_singleton] at h
    rcases h with h | h | h
    · exact Or.inl (List.mem_append.mpr (Or.inl h))
    · exact Or.inr (Or.inl ⟨hfit.1, hfit.2, h⟩)
    · exact Or.inl (List.mem_append.mpr (Or.inr h))
  · simp only [List.mem_append, List.mem_singleton] at h
    rcases h with h | h | h
    · exact Or.inl (List.mem_append.mpr (Or.inl h))
    · exact Or.inl (List.mem_append.mpr (Or.inr h))
    · exact Or.inr (Or.inr ⟨hfit, h⟩)

theorem addRange_fst (t : RangeTable) (raw : String) :
    (addRange t raw).1 = t ∨
      ∃ lo hi, parsedRange raw = some (lo, hi) ∧ (addRange t raw).1 = store t lo hi := by
  cases hp : parsedRange raw with
  | none =>
    obtain ⟨err, herr⟩ := addRange_of_parsedRange_none raw hp
    exact Or.inl (by rw [herr])
  | some p =>
    obtain ⟨lo, hi⟩ := p
    exact Or.inr ⟨lo, hi, rfl, by rw [addRange_of_parsedRange _ _ _ _ hp]⟩

theorem addRanges_invariant (P : Range → Prop) (calls : List (Class × String))
    (hcalls : ∀ call ∈ calls, ∀ lo hi, parsedRange call.2 = some (lo, hi) →
      ∀ t : RangeTable, ∀ r ∈ (store t lo hi).R16 ++ (store t lo hi).R32,
        r ∈ t.R16 ++ t.R32 ∨ P r)
    (T : Tables) (hT : ∀ c, ∀ r ∈ (T.get c).R16 ++ (T.get c).R32, P r) :
    ∀ c, ∀ r ∈ ((addRanges calls T).get c).R16 ++ ((addRanges calls T).get c).R32, P r := by
  induction calls generalizing T with
  | nil => exact hT
  | cons call rest ih =>
    have hstep : addRanges (call :: rest) T =
        addRanges rest (T.set call.1 (addRange (T.get call.1) call.2).1) := rfl
    rw [hstep]
    apply ih
    · intro call' hmem
      exact hcalls call' (List.mem_cons_of_mem _ hmem)
    · intro c r hr
      by_cases hc : c = call.1
      · subst hc
        rw [Tables.get_set_same] at hr
        rcases addRange_fst (T.get call.1) call.2 with h | ⟨lo, hi, hp, h⟩
        · rw [h] at hr
          exact hT _ r hr
        · rw [h] at hr
          rcases hcalls call (List.mem_cons_self _ _) lo hi hp (T.get call.1) r hr with h' | h'
          · exact hT _ r h'
          · exact h'
      · rw [Tables.get_set_other _ _ _ _ hc] at hr
        exact hT _ r hr

/-- C4 (width selection). A specifier that `addRange` accepts with parsed
bounds `lo ≤ hi` is stored, without an error, as one new entry: at the end of
the 16-bit list exactly when `hi ≤ 0xFFFF`, and otherwise at the end of the
32-bit list, whole (also when `lo ≤ 0xFFFF`), with the other list left as it
was. -/
theorem addRange_width_selection (class_ : RangeTable) (raw_range : String) (lo hi : Nat)
    (hparsed : parsedRange raw_range = some (lo, hi)) (hle : lo ≤ hi) :
    (addRange class_ raw_range).2 = none ∧
    (hi ≤ 0xFFFF →
      (addRange class_ raw_range).1 = ⟨class_.R16 ++ [⟨lo, hi⟩], class_.R32⟩) ∧
    (0xFFFF < hi →
      (addRange class_ raw_range).1 =
        ⟨class_.R16, class_.R32 ++ [⟨lo % 2 ^ 32, hi % 2 ^ 32⟩]⟩) ∧
    (0xFFFF < hi → hi < 2 ^ 32 →
      (addRange class_ raw_range).1 = ⟨class_.R16, class_.R32 ++ [⟨lo, hi⟩]⟩) := by
  rw [addRange_of_parsedRange _ _ _ _ hparsed]
  refine ⟨rfl, ?_, ?_, ?_⟩
  · intro h16
    have hlo : lo ≤ 65535 := le_trans hle h16
    have h1 : lo % 2 ^ 16 = lo := Nat.mod_eq_of_lt (by omega)
    have h2 : hi % 2 ^ 16 = hi := Nat.mod_eq_of_lt (by omega)
    simp only [store, MaxUint16, hlo, h16, and_self, if_true, h1, h2]
  · intro h32
    have hn : ¬ (lo ≤ MaxUint16 ∧ hi ≤ MaxUint16) := by
      simp only [MaxUint16]
      omega
    simp only [store, if_neg hn]
  · intro h32 hbound
    have hn : ¬ (lo ≤ MaxUint16 ∧ hi ≤ MaxUint16) := by
      simp only [MaxUint16]
      omega
    have h1 : lo % 2 ^ 32 = lo := Nat.mod_eq_of_lt (by omega)
    have h2 : hi % 2 ^ 32 = hi := Nat.mod_eq_of_lt hbound
    simp only [store, if_neg hn, h1, h2]

theorem addRange_width_selection_witness :
    parsedRange "FFF0..1000F" = some (0xFFF0, 0x1000F) ∧ 0xFFF0 ≤ 0x1000F ∧
    ((addRange ⟨[⟨0x30, 0x39⟩], []⟩ "FFF0..1000F").2 = none ∧
    (0x1000F ≤ 0xFFFF →
      (addRange ⟨[⟨0x30, 0x39⟩], []⟩ "FFF0..1000F").1 =
        ⟨[⟨0x30, 0x39⟩] ++ [⟨0xFFF0, 0x1000F⟩], []⟩) ∧
    (0xFFFF < 0x1000F →
      (addRange ⟨[⟨0x30, 0x39⟩], []⟩ "FFF0..1000F").1 =
        ⟨[⟨0x30, 0x39⟩], [] ++ [⟨0xFFF0 % 2 ^ 32, 0x1000F % 2 ^ 32⟩]⟩) ∧
    (0xFFFF < 0x1000F → 0x1000F < 2 ^ 32 →
      (addRange ⟨[⟨0x30, 0x39⟩], []⟩ "FFF0..1000F").1 =
        ⟨[⟨0x30, 0x39⟩], [] ++ [⟨0xFFF0, 0x1000F⟩]⟩)) :=
  ⟨by decide, by decide,
    addRange_width_selection ⟨[⟨0x30, 0x39⟩], []⟩ "FFF0..1000F" 0xFFF0 0x1000F
      (by decide) (by decide)⟩

/-- C5 as amended (malformed-line rejection). When the run reaches a line of
fewer than `MaxScanTokenSize` (65536) bytes whose text, the line without a
final carriage return, is not empty, does not begin with `#` and does not
split on `;` into exactly two fields, `parse` returns the error whose message
ends with that text, and the tables are as the lines before it left them. -/
theorem parse_rejects_malformed_line (pre post : List String) (line : String)
    (T0 T1 : Tables) (hpre : parse pre T0 = (T1, .ok))
    (hlen : len line < MaxScanTokenSize)
    (hne : dropCR line ≠ "") (hhash : HasPrefix (dropCR line) "#" = false)
    (hparts : (Split (dropCR line) ";").length ≠ 2) :
    parse (pre ++ line :: post) T0 =
      (T1, .error (.errorf ("expected two semi-colon delimited parts, got " ++
        dropCR line))) := by
  rw [parse_append _ _ _ _ hpre]
  have h0 : ¬ MaxScanTokenSize ≤ len line := Nat.not_le.mpr hlen
  have h1 : ¬ HasPrefix (dropCR line) "#" = true := by simp [hhash]
  have h2 : ¬ len (dropCR line) = 0 := fun h => hne ((len_eq_zero_iff _).mp h)
  rw [parse_cons _ _ _ h0, if_neg h1, if_neg h2]
  rcases hsp : Split (dropCR line) ";" with _ | ⟨a, _ | ⟨b, _ | ⟨c, l⟩⟩⟩
  · rfl
  · rfl
  · simp [hsp] at hparts
  · rfl

theorem parse_rejects_malformed_line_witness :
    parse ["0030..0039;N"] Tables.empty = ({ Normal := ⟨[⟨0x30, 0x39⟩], []⟩ }, .ok) ∧
    len "002F;B;x" < MaxScanTokenSize ∧
    dropCR "002F;B;x" ≠ "" ∧ HasPrefix (dropCR "002F;B;x") "#" = false ∧
    (Split (dropCR "002F;B;x") ";").length ≠ 2 ∧
    parse (["0030..0039;N"] ++ "002F;B;x" :: ["0041;A"]) Tables.empty =
      ({ Normal := ⟨[⟨0x30, 0x39⟩], []⟩ },
        .error (.errorf ("expected two semi-colon delimited parts, got " ++
          dropCR "002F;B;x"))) :=
  ⟨by decide, by decide, by decide, by decide, by decide,
    parse_rejects_malformed_line ["0030..0039;N"] ["0041;A"] "002F;B;x" Tables.empty _
      (by decide) (by decide) (by decide) (by decide) (by decide)⟩

/-- C7 (no silent overflow), evaluated at the failing input. In the form
`START..END` the literals are parsed with bit size 64 and then converted with
`uint32`: `100000030..100000039` is accepted and stored as `0x30..0x39`. -/
theorem addRange_range_form_wraps :
    addRange {} "100000030..100000039" = (⟨[], [⟨0x30, 0x39⟩]⟩, none) ∧
    parsedRange "100000030..100000039" = some (0x100000030, 0x100000039) ∧
    addRange {} "100000030" =
      ({}, some (.withStack ⟨"ParseUint", "100000030", .ErrRange⟩)) := by
  refine ⟨by decide, by decide, by decide⟩

/-- C8, the claim as stated fails: `addRange` does not compare the two bounds.
The specifier `0039..0030`, whose end precedes its start, is accepted and
stored as the 16-bit range with `Lo = 0x39` and `Hi = 0x30`. -/
theorem addRange_stores_reversed_range :
    addRange {} "0039..0030" = (⟨[⟨0x39, 0x30⟩], []⟩, none) ∧
    ¬ (∀ r ∈ (addRange {} "0039..0030").1.R16, r.Lo ≤ r.Hi) := by
  refine ⟨by decide, by decide⟩

theorem addRanges_lo_le_hi_of_ordered (calls : List (Class × String))
    (hcalls : ∀ call ∈ calls, ∀ lo hi, parsedRange call.2 = some (lo, hi) →
      lo ≤ hi ∧ hi < 2 ^ 32) (c : Class) :
    ∀ r ∈ ((addRanges calls Tables.empty).get c).R16 ++
        ((addRanges calls Tables.empty).get c).R32, r.Lo ≤ r.Hi := by
  refine addRanges_invariant (fun r => r.Lo ≤ r.Hi) calls ?_ Tables.empty ?_ c
  · intro call hmem lo hi hp t r hr
    obtain ⟨hle, hbound⟩ := hcalls call hmem lo hi hp
    rcases store_ranges t lo hi r hr with h | ⟨h1, h2, rfl⟩ | ⟨_, rfl⟩
    · exact Or.inl h
    · right
      simp only [MaxUint16] at h1 h2
      show lo % 2 ^ 16 ≤ hi % 2 ^ 16
      rw [Nat.mod_eq_of_lt (by omega), Nat.mod_eq_of_lt (by omega)]
      exact hle
    · right
      show lo % 2 ^ 32 ≤ hi % 2 ^ 32
      rw [Nat.mod_eq_of_lt (by omega), Nat.mod_eq_of_lt hbound]
      exact hle
  · intro c r hr
    rw [Tables.empty_get] at hr
    simp at hr

/-- C8 as amended. `addRange` does not compare the two bounds. A specifier
whose parsed bounds are `hi < lo`, with `lo` below `2 ^ 32`, is accepted and
stored as the one entry with `Lo = lo` and `Hi = hi`, in the 16-bit list when
`lo ≤ 0xFFFF` and in the 32-bit list otherwise. And after any sequence of
`addRange` calls starting from empty tables in which every accepted specifier
has parsed bounds `lo ≤ hi` that fit 32 bits, every stored 16-bit and 32-bit
range satisfies `Lo ≤ Hi`. -/
theorem addRange_order_of_bounds :
    (∀ (t : RangeTable) (raw_range : String) (lo hi : Nat),
      parsedRange raw_range = some (lo, hi) → hi < lo → lo < 2 ^ 32 →
      addRange t raw_range =
        (if lo ≤ 0xFFFF then ⟨t.R16 ++ [⟨lo, hi⟩], t.R32⟩
          else ⟨t.R16, t.R32 ++ [⟨lo, hi⟩]⟩, none)) ∧
    (∀ (calls : List (Class × String)),
      (∀ call ∈ calls, ∀ lo hi, parsedRange call.2 = some (lo, hi) →
        lo ≤ hi ∧ hi < 2 ^ 32) →
      ∀ (c : Class), ∀ r ∈ ((addRanges calls Tables.empty).get c).R16 ++
        ((addRanges calls Tables.empty).get c).R32, r.Lo ≤ r.Hi) := by
  refine ⟨?_, addRanges_lo_le_hi_of_ordered⟩
  intro t raw_range lo hi hp hlt hlo
  rw [addRange_of_parsedRange _ _ _ _ hp]
  by_cases h16 : lo ≤ 0xFFFF
  · have hfit : lo ≤ MaxUint16 ∧ hi ≤ MaxUint16 := by
      simp only [MaxUint16]
      omega
    have h1 : lo % 2 ^ 16 = lo := Nat.mod_eq_of_lt (by omega)
    have h2 : hi % 2 ^ 16 = hi := Nat.mod_eq_of_lt (by omega)
    simp only [store, if_pos hfit, if_pos h16, h1, h2]
  · have hfit : ¬ (lo ≤ MaxUint16 ∧ hi ≤ MaxUint16) := by
      simp only [MaxUint16]
      omega
    have h1 : lo % 2 ^ 32 = lo := Nat.mod_eq_of_lt hlo
    have h2 : hi % 2 ^ 32 = hi := Nat.mod_eq_of_lt (by omega)
    simp only [store, if_neg hfit, if_neg h16, h1, h2]

theorem addRange_order_of_bounds_witness :
    (parsedRange "1D454..0030" = some (0x1D454, 0x30) ∧ 0x30 < 0x1D454 ∧
      0x1D454 < 2 ^ 32 ∧
      addRange ⟨[⟨0x41, 0x5A⟩], []⟩ "1D454..0030" =
        (if 0x1D454 ≤ 0xFFFF then ⟨[⟨0x41, 0x5A⟩] ++ [⟨0x1D454, 0x30⟩], []⟩
          else ⟨[⟨0x41, 0x5A⟩], [] ++ [⟨0x1D454, 0x30⟩]⟩, none)) ∧
    (∀ call ∈ [(Class.Normal, "0030..0039"), (Class.Alphabetic, "1D400..1D454"),
        (Class.Normal, "zz")],
      ∀ lo hi, parsedRange call.2 = some (lo, hi) → lo ≤ hi ∧ hi < 2 ^ 32) ∧
    ∀ r ∈ ((addRanges [(Class.Normal, "0030..0039"), (Class.Alphabetic, "1D400..1D454"),
        (Class.Normal, "zz")] Tables.empty).get Class.Alphabetic).R16 ++
        ((addRanges [(Class.Normal, "0030..0039"), (Class.Alphabetic, "1D400..1D454"),
          (Class.Normal, "zz")] Tables.empty).get Class.Alphabetic).R32, r.Lo ≤ r.Hi :=
  have h : ∀ call ∈ [(Class.Normal, "0030..0039"), (Class.Alphabetic, "1D400..1D454"),
        (Class.Normal, "zz")],
      ∀ lo hi, parsedRange call.2 = some (lo, hi) → lo ≤ hi ∧ hi < 2 ^ 32 := by
    intro call hmem lo hi hp
    simp only [List.mem_cons, List.mem_singleton, List.mem_nil_iff, or_false] at hmem
    rcases hmem with rfl | rfl | rfl
    · have h0 : parsedRange "0030..0039" = some (0x30, 0x39) := by decide
      rw [h0] at hp
      simp only [Option.some.injEq, Prod.mk.injEq] at hp
      omega
    · have h0 : parsedRange "1D400..1D454" = some (0x1D400, 0x1D454) := by decide
      rw [h0] at hp
      simp only [Option.some.injEq, Prod.mk.injEq] at hp
      omega
    · have h0 : parsedRange "zz" = none := by decide
      rw [h0] at hp
      exact absurd hp (by simp)
  ⟨⟨by decide, by decide, by decide,
      addRange_order_of_bounds.1 ⟨[⟨0x41, 0x5A⟩], []⟩ "1D454..0030" 0x1D454 0x30
        (by decide) (by decide) (by decide)⟩,
    h, addRange_order_of_bounds.2 _ h Class.Alphabetic⟩

/-- C9, the claim as stated fails: on the line `0030;Z` the run of `parse`
ends in the panic of `getClass`, and returns no error value. -/
theorem parse_unknown_tag_no_error :
    (parse ["0030;Z"] Tables.empty).2 =
      .panic ⟨"support for class %q not yet implemented", "Z"⟩ ∧
    ¬ ∃ err, (parse ["0030;Z"] Tables.empty).2 = .error err := by
  have h : (parse ["0030;Z"] Tables.empty).2 =
      .panic ⟨"support for class %q not yet implemented", "Z"⟩ := by decide
  refine ⟨h, ?_⟩
  rintro ⟨err, herr⟩
  rw [h] at herr
  exact Outcome.noConfusion herr

/-- C9 as amended. When the run reaches a line of fewer than
`MaxScanTokenSize` (65536) bytes whose text, the line without a final
carriage return, is not empty, does not begin with `#` and has exactly two
semicolon-delimited fields, the second of which is none of the tags of
`getClass`, `parse` ends in a panic whose value names that tag; the specifier
is not examined and the tables are as the lines before left them. -/
theorem parse_unknown_tag_panics (pre post : List String) (line raw_range raw_class : String)
    (T0 T1 : Tables) (hpre : parse pre T0 = (T1, .ok))
    (hlen : len line < MaxScanTokenSize)
    (hne : dropCR line ≠ "") (hhash : HasPrefix (dropCR line) "#" = false)
    (hsplit : Split (dropCR line) ";" = [raw_range, raw_class])
    (htag : raw_class ∉ recognizedTags) :
    parse (pre ++ line :: post) T0 =
      (T1, .panic ⟨"support for class %q not yet implemented", raw_class⟩) := by
  rw [parse_append _ _ _ _ hpre]
  have h0 : ¬ MaxScanTokenSize ≤ len line := Nat.not_le.mpr hlen
  have h1 : ¬ HasPrefix (dropCR line) "#" = true := by simp [hhash]
  have h2 : ¬ len (dropCR line) = 0 := fun h => hne ((len_eq_zero_iff _).mp h)
  rw [parse_cons _ _ _ h0, if_neg h1, if_neg h2, hsplit]
  simp only [getClass_unrecognized raw_class htag]

theorem parse_unknown_tag_panics_witness :
    parse ["0030..0039;N"] Tables.empty = ({ Normal := ⟨[⟨0x30, 0x39⟩], []⟩ }, .ok) ∧
    len "zz;Z" < MaxScanTokenSize ∧ dropCR "zz;Z" ≠ "" ∧
    HasPrefix (dropCR "zz;Z") "#" = false ∧ Split (dropCR "zz;Z") ";" = ["zz", "Z"] ∧
    "Z" ∉ recognizedTags ∧
    parse (["0030..0039;N"] ++ "zz;Z" :: ["0041;A"]) Tables.empty =
      ({ Normal := ⟨[⟨0x30, 0x39⟩], []⟩ },
        .panic ⟨"support for class %q not yet implemented", "Z"⟩) :=
  ⟨by decide, by decide, by decide, by decide, by decide, by decide,
    parse_unknown_tag_panics ["0030..0039;N"] ["0041;A"] "zz;Z" "zz" "Z" Tables.empty _
      (by decide) (by decide) (by decide) (by decide) (by decide) (by decide)⟩

/-- C10, the claim as stated fails: `parse` appends to the package-level
tables line by line and does not undo it. On the lines `0030;N`, `bad` it
returns an error and the Normal table holds the range of the first line. -/
theorem parse_failure_leaves_ranges :
    parse ["0030;N", "bad"] Tables.empty =
      ({ Normal := ⟨[⟨0x30, 0x30⟩], []⟩ },
        .error (.errorf "expected two semi-colon delimited parts, got bad")) ∧
    (parse ["0030;N", "bad"] Tables.empty).1 ≠ Tables.empty := by
  refine ⟨by decide, by decide⟩

/-- C10 as amended. When `parse` does not return `nil` (an error or the panic
of `getClass`), it stopped at some line: the tables hold exactly what the
lines before that line stored, the records of those lines in order, and
neither that line nor a later one has added a range. -/
theorem parse_failure_state (lines : List String) (T0 T : Tables) (o : Outcome)
    (h : parse lines T0 = (T, o)) (ho : o ≠ .ok) :
    ∃ pre text post, lines = pre ++ text :: post ∧ parse pre T0 = (T, .ok) ∧
      T = build (records pre) T0 ∧ parse (pre ++ [text]) T0 = (T, o) := by
  obtain ⟨pre, text, post, hl, hpre, _, _, hall⟩ := parse_stops lines T0 T o h ho
  exact ⟨pre, text, post, hl, hpre, parse_ok_build pre T0 T hpre, hall []⟩

theorem parse_failure_state_witness :
    parse ["0030;N", "bad", "0041;A"] Tables.empty =
      ({ Normal := ⟨[⟨0x30, 0x30⟩], []⟩ },
        .error (.errorf "expected two semi-colon delimited parts, got bad")) ∧
    Outcome.error (.errorf "expected two semi-colon delimited parts, got bad") ≠ .ok ∧
    ∃ pre text post, ["0030;N", "bad", "0041;A"] = pre ++ text :: post ∧
      parse pre Tables.empty = ({ Normal := ⟨[⟨0x30, 0x30⟩], []⟩ }, .ok) ∧
      ({ Normal := ⟨[⟨0x30, 0x30⟩], []⟩ } : Tables) = build (records pre) Tables.empty ∧
      parse (pre ++ [text]) Tables.empty =
        ({ Normal := ⟨[⟨0x30, 0x30⟩], []⟩ },
          .error (.errorf "expected two semi-colon delimited parts, got bad")) :=
  ⟨by decide, by decide,
    parse_failure_state ["0030;N", "bad", "0041;A"] Tables.empty _ _ (by decide) (by decide)⟩

theorem parsedRange_forms (raw : String) (lo hi : Nat) (h : parsedRange raw = some (lo, hi)) :
    IsHexLiteral raw ∨ ∃ a b, IsHexLiteral a ∧ IsHexLiteral b ∧ raw = a ++ ".." ++ b := by
  unfold parsedRange at h
  by_cases hc : Contains raw ".." = true
  · simp only [hc, if_true] at h
    rcases hsp : Split raw ".." with _ | ⟨a, _ | ⟨b, _ | ⟨c, l⟩⟩⟩
    · simp [hsp] at h
    · simp [hsp] at h
    · simp only [hsp] at h
      cases hs : ParseUint a 16 64 with
      | error err => simp [hs] at h
      | ok s' =>
        cases he : ParseUint b 16 64 with
        | error err => simp [hs, he] at h
        | ok e' =>
          exact Or.inr ⟨a, b, ParseUint_hex a 64 s' hs, ParseUint_hex b 64 e' he,
            eq_append_of_Split raw ".." a b (by decide) hsp⟩
    · simp [hsp] at h
  · simp only [hc] at h
    cases hn : ParseUint raw 16 32 with
    | error err => simp [hn] at h
    | ok n => exact Or.inl (ParseUint_hex raw 32 n hn)

/-- C6 (invalid code-point rejection). A specifier that is neither a
base-16 literal (a non-empty string of hexadecimal digits) nor two such
literals joined by one `..` makes `addRange` return an error and leaves the
table as it was. -/
theorem addRange_rejects_invalid_specifier (class_ : RangeTable) (raw_range : String)
    (hsingle : ¬ IsHexLiteral raw_range)
    (hpair : ¬ ∃ a b, IsHexLiteral a ∧ IsHexLiteral b ∧ raw_range = a ++ ".." ++ b) :
    ∃ err, addRange class_ raw_range = (class_, some err) := by
  cases hp : parsedRange raw_range with
  | none =>
    obtain ⟨err, herr⟩ := addRange_of_parsedRange_none raw_range hp
    exact ⟨err, herr class_⟩
  | some p =>
    obtain ⟨lo, hi⟩ := p
    rcases parsedRange_forms raw_range lo hi hp with h | h
    · exact absurd h hsingle
    · exact absurd h hpair

/-- The specifiers `ZZZZ`, the empty one, `0030..` and `0030..0039..0040` are
each rejected, and the table is left as it was. -/
theorem addRange_invalid_examples (t : RangeTable) :
    addRange t "ZZZZ" = (t, some (.withStack ⟨"ParseUint", "ZZZZ", .ErrSyntax⟩)) ∧
    addRange t "" = (t, some (.withStack ⟨"ParseUint", "", .ErrSyntax⟩)) ∧
    addRange t "0030.." = (t, some (.withStack ⟨"ParseUint", "", .ErrSyntax⟩)) ∧
    addRange t "0030..0039..0040" =
      (t, some (.errorf "expected two .. delimited parts in range, got 0030..0039..0040")) := by
  refine ⟨?_, ?_, ?_, ?_⟩
  · have h1 : Contains "ZZZZ" ".." = false := by decide
    have h2 : ParseUint "ZZZZ" 16 32 = .error ⟨"ParseUint", "ZZZZ", .ErrSyntax⟩ := by decide
    simp only [addRange, h1, h2]
    rfl
  · have h1 : Contains "" ".." = false := by decide
    have h2 : ParseUint "" 16 32 = .error ⟨"ParseUint", "", .ErrSyntax⟩ := by decide
    simp only [addRange, h1, h2]
    rfl
  · have h1 : Contains "0030.." ".." = true := by decide
    have h2 : Split "0030.." ".." = ["0030", ""] := by decide
    have h3 : ParseUint "0030" 16 64 = .ok 0x30 := by decide
    have h4 : ParseUint "" 16 64 = .error ⟨"ParseUint", "", .ErrSyntax⟩ := by decide
    simp only [addRange, h1, h2, h3, h4, if_true]
  · have h1 : Contains "0030..0039..0040" ".." = true := by decide
    have h2 : Split "0030..0039..0040" ".." = ["0030", "0039", "0040"] := by decide
    simp only [addRange, h1, h2, if_true]
    rfl

theorem addRange_rejects_invalid_specifier_witness :
    ¬ IsHexLiteral "ZZZZ" ∧
    (¬ ∃ a b, IsHexLiteral a ∧ IsHexLiteral b ∧ "ZZZZ" = a ++ ".." ++ b) ∧
    ∃ err, addRange ⟨[⟨0x30, 0x39⟩], []⟩ "ZZZZ" = (⟨[⟨0x30, 0x39⟩], []⟩, some err) :=
  have h1 : ¬ IsHexLiteral "ZZZZ" := fun h =>
    absurd (h.2 (Char.ofNat 90) (by decide)) (by decide)
  have h2 : ¬ ∃ a b, IsHexLiteral a ∧ IsHexLiteral b ∧ "ZZZZ" = a ++ ".." ++ b := by
    rintro ⟨a, b, _, _, hab⟩
    have hc := Contains_append a ".." b
    rw [← hab] at hc
    exact absurd hc (by decide)
  ⟨h1, h2, addRange_rejects_invalid_specifier ⟨[⟨0x30, 0x39⟩], []⟩ "ZZZZ" h1 h2⟩

theorem not_covers_both (a b : Record) (h : a.hi < b.lo ∨ b.hi < a.lo) (cp : Nat) :
    ¬ (a.Covers cp ∧ b.Covers cp) := by
  rintro ⟨⟨h1, h2⟩, h3, h4⟩
  omega

/-- C1 (boundary coverage). Let a sequence of lines build successfully from
empty tables, with every parsed range `lo ≤ hi ≤ 0x10FFFF`, the ranges of each
class ascending and non-overlapping in the order of the lines, and ranges of
different classes disjoint. For every line of it with record `e`, the table of
`e.cls` contains `e.lo`, `e.hi` and every code point between them, in
whichever list the range was stored, and classifying over the fifteen tables
in declaration order returns `e.cls` for them. -/
theorem classify_boundary_coverage (lines : List String) (T : Tables)
    (hbuild : parse lines Tables.empty = (T, .ok))
    (hcp : ∀ e ∈ records lines, e.lo ≤ e.hi ∧ e.hi ≤ 0x10FFFF)
    (hsorted : ∀ c, ((records lines).filter (fun e => decide (e.cls = c))).Pairwise
      (fun a b => a.hi < b.lo))
    (hdisj : ∀ a ∈ records lines, ∀ b ∈ records lines, a.cls ≠ b.cls →
      ∀ cp, ¬ (a.Covers cp ∧ b.Covers cp))
    (text : String) (hmem : text ∈ lines) (e : Record) (hline : parsedLine text = some e) :
    (Is (T.get e.cls) e.lo = true ∧ classify T e.lo = some e.cls) ∧
    (Is (T.get e.cls) e.hi = true ∧ classify T e.hi = some e.cls) ∧
    ∀ cp, e.lo ≤ cp → cp ≤ e.hi →
      Is (T.get e.cls) cp = true ∧ classify T cp = some e.cls := by
  have he := mem_records lines text e hmem hline
  have hb : ∀ e ∈ records lines, e.lo < 2 ^ 32 ∧ e.hi < 2 ^ 32 := by
    intro a ha
    have := hcp a ha
    omega
  have hall : ∀ cp, e.lo ≤ cp → cp ≤ e.hi →
      Is (T.get e.cls) cp = true ∧ classify T cp = some e.cls := by
    intro cp h1 h2
    have hIs := parse_Is_complete lines T hbuild hcp hsorted e he cp ⟨h1, h2⟩
    refine ⟨hIs, ?_⟩
    apply find?_unique classes _ e.cls (mem_classes _) hIs
    intro d hd
    by_contra hne
    have hcpb : cp < 2 ^ 32 := by
      have := (hcp e he).2
      omega
    obtain ⟨b, hbmem, hbcls, hbcov⟩ := parse_Is_sound lines T hbuild hb d cp hcpb hd
    exact hdisj e he b hbmem (by rw [hbcls]; exact fun h => hne h.symm) cp ⟨⟨h1, h2⟩, hbcov⟩
  have hle := (hcp e he).1
  exact ⟨hall e.lo (le_refl _) hle, hall e.hi hle (le_refl _), hall⟩

theorem classify_boundary_coverage_witness :
    parse sampleLines Tables.empty = (sampleTables, .ok) ∧
    "FFF0..1000F;A" ∈ sampleLines ∧
    parsedLine "FFF0..1000F;A" = some ⟨.Alphabetic, 0xFFF0, 0x1000F⟩ ∧
    (Is (sampleTables.get .Alphabetic) 0xFFF0 = true ∧
      classify sampleTables 0xFFF0 = some .Alphabetic) ∧
    (Is (sampleTables.get .Alphabetic) 0x1000F = true ∧
      classify sampleTables 0x1000F = some .Alphabetic) ∧
    ∀ cp, 0xFFF0 ≤ cp → cp ≤ 0x1000F →
      Is (sampleTables.get .Alphabetic) cp = true ∧
        classify sampleTables cp = some .Alphabetic :=
  ⟨by decide, by decide, by decide,
    classify_boundary_coverage sampleLines sampleTables (by decide) (by decide)
      (fun c => by cases c <;> decide)
      (fun a ha b hb hne cp =>
        not_covers_both a b
          ((by decide : ∀ a ∈ records sampleLines, ∀ b ∈ records sampleLines,
            a.cls ≠ b.cls → a.hi < b.lo ∨ b.hi < a.lo) a ha b hb hne) cp)
      "FFF0..1000F;A" (by decide) ⟨.Alphabetic, 0xFFF0, 0x1000F⟩ (by decide)⟩

/-- C2 (absence), evaluated at the failing input. The line
`100000030..100000039;N` builds successfully; its parsed range is
`0x100000030..0x100000039`, which does not cover the code point `0x30`; but
the range is stored converted with `uint32`, as `0x30..0x39`, so the Normal
table contains `0x30` and the classification returns Normal. -/
theorem absence_fails_on_wrapped_range :
    parse ["100000030..100000039;N"] Tables.empty =
      ({ Normal := ⟨[], [⟨0x30, 0x39⟩]⟩ }, .ok) ∧
    records ["100000030..100000039;N"] = [⟨.Normal, 0x100000030, 0x100000039⟩] ∧
    (∀ e ∈ records ["100000030..100000039;N"], ¬ (e.lo ≤ 0x30 ∧ 0x30 ≤ e.hi)) ∧
    Is ((parse ["100000030..100000039;N"] Tables.empty).1.get .Normal) 0x30 = true ∧
    classify (parse ["100000030..100000039;N"] Tables.empty).1 0x30 = some .Normal := by
  refine ⟨by decide, by decide, by decide, by decide, by decide⟩

/-- C3 (disjointness). Let a sequence of lines build successfully from empty
tables, with every parsed bound at most `0x10FFFF` and ranges of different
classes disjoint. Then every code point (every non-negative rune) is contained
in at most one of the fifteen tables. -/
theorem at_most_one_class (lines : List String) (T : Tables)
    (hbuild : parse lines Tables.empty = (T, .ok))
    (hcp : ∀ e ∈ records lines, e.lo ≤ 0x10FFFF ∧ e.hi ≤ 0x10FFFF)
    (hdisj : ∀ a ∈ records lines, ∀ b ∈ records lines, a.cls ≠ b.cls →
      ∀ cp, ¬ (a.Covers cp ∧ b.Covers cp))
    (cp : Nat) (hrune : cp < 2 ^ 31) (c d : Class)
    (hc : Is (T.get c) cp = true) (hd : Is (T.get d) cp = true) : c = d := by
  have hb : ∀ e ∈ records lines, e.lo < 2 ^ 32 ∧ e.hi < 2 ^ 32 := by
    intro a ha
    have := hcp a ha
    omega
  obtain ⟨a, ha, hacls, hacov⟩ := parse_Is_sound lines T hbuild hb c cp (by omega) hc
  obtain ⟨b, hbm, hbcls, hbcov⟩ := parse_Is_sound lines T hbuild hb d cp (by omega) hd
  by_contra hne
  exact hdisj a ha b hbm (by rw [hacls, hbcls]; exact hne) cp ⟨hacov, hbcov⟩

theorem at_most_one_class_witness :
    parse sampleLines Tables.empty = (sampleTables, .ok) ∧
    (∀ e ∈ records sampleLines, e.lo ≤ 0x10FFFF ∧ e.hi ≤ 0x10FFFF) ∧
    (0x10000 : Nat) < 2 ^ 31 ∧
    Is (sampleTables.get .Alphabetic) 0x10000 = true ∧
    ∀ d, Is (sampleTables.get d) 0x10000 = true → Class.Alphabetic = d :=
  ⟨by decide, by decide, by decide, by decide, fun d hd =>
    at_most_one_class sampleLines sampleTables (by decide) (by decide)
      (fun a ha b hb hne cp =>
        not_covers_both a b
          ((by decide : ∀ a ∈ records sampleLines, ∀ b ∈ records sampleLines,
            a.cls ≠ b.cls → a.hi < b.lo ∨ b.hi < a.lo) a ha b hb hne) cp)
      0x10000 (by decide) .Alphabetic d (by decide) hd⟩

/-! ## Skipped lines, appends, order -/

theorem skipped_eq (line : String) :
    skipped line =
      (decide (len line < MaxScanTokenSize) &&
        (HasPrefix (dropCR line) "#" || decide (dropCR line = ""))) := by
  simp [skipped, len_eq_zero_iff]

/-- C11 as amended (comment and blank lines are skipped). On every sequence
of lines, from every state of the tables, `parse` ends as it does on the
sequence without the lines of fewer than `MaxScanTokenSize` (65536) bytes
whose text, the line without a final carriage return, is empty or begins with
`#`: the same outcome and the same tables. In particular such a line
beginning with `#` is passed over, whatever it contains. -/
theorem parse_skips_comments_and_blanks (lines : List String) (T : Tables) :
    parse lines T =
      parse (lines.filter (fun line =>
        !(decide (len line < MaxScanTokenSize) &&
          (HasPrefix (dropCR line) "#" || decide (dropCR line = ""))))) T ∧
    ∀ (line : String) (rest : List String), len line < MaxScanTokenSize →
      HasPrefix (dropCR line) "#" = true → parse (line :: rest) T = parse rest T := by
  constructor
  · induction lines generalizing T with
    | nil => rfl
    | cons text rest ih =>
      by_cases hs : skipped text = true
      · have hf : (!(decide (len text < MaxScanTokenSize) &&
            (HasPrefix (dropCR text) "#" || decide (dropCR text = "")))) = false := by
          rw [← skipped_eq, hs]
          rfl
        rw [parse_cons_skipped _ _ _ hs, List.filter_cons, hf]
        exact ih T
      · have hf : (!(decide (len text < MaxScanTokenSize) &&
            (HasPrefix (dropCR text) "#" || decide (dropCR text = "")))) = true := by
          rw [← skipped_eq]
          simpa using hs
        rw [List.filter_cons, if_pos hf]
        cases hp : parsedLine text with
        | none =>
          obtain ⟨o, _, hpo⟩ := parse_cons_rejected text hs hp
          rw [hpo, hpo]
        | some e =>
          rw [parse_cons_parsed _ _ _ _ hp, parse_cons_parsed _ _ _ _ hp]
          exact ih _
  · intro line rest hlen hhash
    exact parse_cons_skipped line rest T (by simp [skipped, hlen, hhash])

theorem addRange_ok_parsed (t : RangeTable) (raw : String) (hok : (addRange t raw).2 = none) :
    ∃ lo hi, parsedRange raw = some (lo, hi) ∧ addRange t raw = (store t lo hi, none) := by
  cases hp : parsedRange raw with
  | none =>
    obtain ⟨err, herr⟩ := addRange_of_parsedRange_none raw hp
    rw [herr t] at hok
    exact absurd hok (by simp)
  | some p =>
    obtain ⟨lo, hi⟩ := p
    exact ⟨lo, hi, rfl, addRange_of_parsedRange t raw lo hi hp⟩

/-- C12 (append without merging). A call `addRange(class, raw_range)` that
returns `nil` appends one entry `x` at the end of one of the two lists of that
class and leaves the other list as it was, never both, whatever the table
already holds; the entries stored before keep their values and their order,
and the tables of the other fourteen classes are unchanged. -/
theorem addRange_appends_one_entry (T : Tables) (c : Class) (raw_range : String)
    (hok : (addRange (T.get c) raw_range).2 = none) :
    ∃ x : Range,
      ((addRange (T.get c) raw_range).1 = ⟨(T.get c).R16 ++ [x], (T.get c).R32⟩ ∨
        (addRange (T.get c) raw_range).1 = ⟨(T.get c).R16, (T.get c).R32 ++ [x]⟩) ∧
      ¬ ((addRange (T.get c) raw_range).1.R16 ≠ (T.get c).R16 ∧
        (addRange (T.get c) raw_range).1.R32 ≠ (T.get c).R32) ∧
      (T.set c (addRange (T.get c) raw_range).1).get c = (addRange (T.get c) raw_range).1 ∧
      ∀ d, d ≠ c → (T.set c (addRange (T.get c) raw_range).1).get d = T.get d := by
  obtain ⟨lo, hi, _, hadd⟩ := addRange_ok_parsed (T.get c) raw_range hok
  rw [hadd]
  by_cases hfit : lo ≤ MaxUint16 ∧ hi ≤ MaxUint16
  · refine ⟨⟨lo % 2 ^ 16, hi % 2 ^ 16⟩, Or.inl ?_, ?_, Tables.get_set_same _ _ _,
      fun d hd => Tables.get_set_other _ _ _ _ hd⟩
    · simp only [store, if_pos hfit]
    · simp only [store, if_pos hfit]
      exact fun h => h.2 rfl
  · refine ⟨⟨lo % 2 ^ 32, hi % 2 ^ 32⟩, Or.inr ?_, ?_, Tables.get_set_same _ _ _,
      fun d hd => Tables.get_set_other _ _ _ _ hd⟩
    · simp only [store, if_neg hfit]
    · simp only [store, if_neg hfit]
      exact fun h => h.1 rfl

theorem addRange_appends_one_entry_witness :
    (addRange (sampleTables.get .Alphabetic) "0050..005B").2 = none ∧
    ∃ x : Range,
      ((addRange (sampleTables.get .Alphabetic) "0050..005B").1 =
          ⟨(sampleTables.get .Alphabetic).R16 ++ [x], (sampleTables.get .Alphabetic).R32⟩ ∨
        (addRange (sampleTables.get .Alphabetic) "0050..005B").1 =
          ⟨(sampleTables.get .Alphabetic).R16, (sampleTables.get .Alphabetic).R32 ++ [x]⟩) ∧
      ¬ ((addRange (sampleTables.get .Alphabetic) "0050..005B").1.R16 ≠
          (sampleTables.get .Alphabetic).R16 ∧
        (addRange (sampleTables.get .Alphabetic) "0050..005B").1.R32 ≠
          (sampleTables.get .Alphabetic).R32) ∧
      (sampleTables.set .Alphabetic
          (addRange (sampleTables.get .Alphabetic) "0050..005B").1).get .Alphabetic =
        (addRange (sampleTables.get .Alphabetic) "0050..005B").1 ∧
      ∀ d, d ≠ Class.Alphabetic →
        (sampleTables.set .Alphabetic
          (addRange (sampleTables.get .Alphabetic) "0050..005B").1).get d =
          sampleTables.get d :=
  ⟨by decide, addRange_appends_one_entry sampleTables .Alphabetic "0050..005B" (by decide)⟩

/-- The entry that the call of the witness appends overlaps the range
`0x41..0x5A` already stored, and the two are kept as two entries. -/
theorem addRange_overlap_example :
    (addRange (sampleTables.get .Alphabetic) "0050..005B").1 =
      ⟨[⟨0x41, 0x5A⟩, ⟨0x50, 0x5B⟩], [⟨0xFFF0, 0x1000F⟩, ⟨0x1D400, 0x1D454⟩]⟩ := by
  decide

/-- C13 (sortedness). Let a sequence of lines build successfully from empty
tables, with every parsed range `lo ≤ hi ≤ 0x10FFFF` and the ranges of each
class ascending and non-overlapping in the order of the lines. Then for each
class the 16-bit list and the 32-bit list are ascending and non-overlapping
(every entry begins after every earlier entry ends), and every entry of the
16-bit list ends before every entry of the 32-bit list begins. -/
theorem parse_tables_sorted (lines : List String) (T : Tables)
    (hbuild : parse lines Tables.empty = (T, .ok))
    (hcp : ∀ e ∈ records lines, e.lo ≤ e.hi ∧ e.hi ≤ 0x10FFFF)
    (hsorted : ∀ c, ((records lines).filter (fun e => decide (e.cls = c))).Pairwise
      (fun a b => a.hi < b.lo))
    (c : Class) :
    (T.get c).R16.Pairwise (fun a b => a.Hi < b.Lo) ∧
    (T.get c).R32.Pairwise (fun a b => a.Hi < b.Lo) ∧
    ∀ x ∈ (T.get c).R16, ∀ y ∈ (T.get c).R32, x.Hi < y.Lo := by
  have hb : ∀ e ∈ records lines, e.lo < 2 ^ 32 ∧ e.hi < 2 ^ 32 := by
    intro a ha
    have := hcp a ha
    omega
  obtain ⟨h16, h32⟩ := parse_tables lines T hbuild hb c
  have hpw := hsorted c
  generalize hes : (records lines).filter (fun a => decide (a.cls = c)) = es at h16 h32 hpw
  have hsub : ∀ a ∈ es, a ∈ records lines := by
    intro a ha
    rw [← hes] at ha
    exact List.mem_of_mem_filter ha
  refine ⟨?_, ?_, ?_⟩
  · rw [h16]
    exact (hpw.filter _).map _ (fun a b hab => hab)
  · rw [h32]
    exact (hpw.filter _).map _ (fun a b hab => hab)
  · intro x hx y hy
    rw [h16] at hx
    rw [h32] at hy
    obtain ⟨a, ha, rfl⟩ := List.mem_map.mp hx
    obtain ⟨b, hb', rfl⟩ := List.mem_map.mp hy
    obtain ⟨haes, haf⟩ := List.mem_filter.mp ha
    obtain ⟨hbes, hbf⟩ := List.mem_filter.mp hb'
    have hne : a ≠ b := by
      rintro rfl
      simp [haf] at hbf
    have hsym : es.Pairwise (fun a b => a.hi < b.lo ∨ b.hi < a.lo) :=
      hpw.imp (fun h => Or.inl h)
    have hor := hsym.forall (fun a b h => h.symm) haes hbes hne
    simp only [Record.fits16, MaxUint16, decide_eq_true_eq, Bool.not_eq_true',
      decide_eq_false_iff_not] at haf hbf
    have hble := (hcp b (hsub b hbes)).1
    have hale := (hcp a (hsub a haes)).1
    show a.hi < b.lo
    rcases hor with h | h
    · exact h
    · exfalso
      apply hbf
      omega

theorem parse_tables_sorted_witness :
    parse sampleLines Tables.empty = (sampleTables, .ok) ∧
    (∀ e ∈ records sampleLines, e.lo ≤ e.hi ∧ e.hi ≤ 0x10FFFF) ∧
    (sampleTables.get .Alphabetic).R16.Pairwise (fun a b => a.Hi < b.Lo) ∧
    (sampleTables.get .Alphabetic).R32.Pairwise (fun a b => a.Hi < b.Lo) ∧
    ∀ x ∈ (sampleTables.get .Alphabetic).R16, ∀ y ∈ (sampleTables.get .Alphabetic).R32,
      x.Hi < y.Lo :=
  ⟨by decide, by decide,
    parse_tables_sorted sampleLines sampleTables (by decide) (by decide)
      (fun c => by cases c <;> decide) .Alphabetic⟩

/-! ## Class tags -/

theorem getClass_tag (c : Class) : getClass c.tag = .ok c := by
  cases c <;> decide

theorem getClass_recognized :
    ∀ s ∈ recognizedTags, ∃ c ∈ classes, getClass s = .ok c ∧ s = c.tag := by
  decide

theorem getClass_ok (s : String) (c : Class) (h : getClass s = .ok c) : s = c.tag := by
  by_cases hmem : s ∈ recognizedTags
  · obtain ⟨d, _, hd, htag⟩ := getClass_recognized s hmem
    rw [hd] at h
    cases h
    exact htag
  · rw [getClass_unrecognized s hmem] at h
    exact absurd h (by simp)

theorem getClass_accepts_iff (s : String) :
    (∃ c, getClass s = .ok c) ↔ s ∈ recognizedTags := by
  constructor
  · rintro ⟨c, hc⟩
    rw [getClass_ok s c hc]
    cases c <;> decide
  · intro hs
    obtain ⟨c, _, hc, _⟩ := getClass_recognized s hs
    exact ⟨c, hc⟩

theorem parse_single_line (text : String) (e : Record) (T : Tables)
    (h : parsedLine text = some e) :
    parse [text] T = (T.set e.cls (store (T.get e.cls) e.lo e.hi), .ok) := by
  rw [parse_cons_parsed _ _ _ _ h]
  rfl

/-- C14 (tag-to-class mapping). `getClass` maps each of the fifteen tags to
the table of its class; two tags that give the same table are equal; every
table is given by some tag; and the line `0030..0039;N` appends its range to
the Normal table and changes no other table, as `002F;B` does for Binary. -/
theorem getClass_mapping :
    (getClass "N" = .ok .Normal ∧ getClass "A" = .ok .Alphabetic ∧
      getClass "B" = .ok .Binary ∧ getClass "C" = .ok .Closing ∧
      getClass "D" = .ok .Diacritic ∧ getClass "F" = .ok .Fence ∧
      getClass "G" = .ok .Glyph_Part ∧ getClass "L" = .ok .Large ∧
      getClass "O" = .ok .Opening ∧ getClass "P" = .ok .Punctuation ∧
      getClass "R" = .ok .Relation ∧ getClass "S" = .ok .Space ∧
      getClass "U" = .ok .Unary ∧ getClass "V" = .ok .Vary ∧
      getClass "X" = .ok .Special) ∧
    (∀ s t c, getClass s = .ok c → getClass t = .ok c → s = t) ∧
    (∀ c, ∃ s, getClass s = .ok c) ∧
    (∀ T : Tables,
      parse ["0030..0039;N"] T =
        (T.set .Normal ⟨(T.get .Normal).R16 ++ [⟨0x30, 0x39⟩], (T.get .Normal).R32⟩, .ok) ∧
      ∀ d, d ≠ Class.Normal → (parse ["0030..0039;N"] T).1.get d = T.get d) ∧
    (∀ T : Tables,
      parse ["002F;B"] T =
        (T.set .Binary ⟨(T.get .Binary).R16 ++ [⟨0x2F, 0x2F⟩], (T.get .Binary).R32⟩, .ok) ∧
      ∀ d, d ≠ Class.Binary → (parse ["002F;B"] T).1.get d = T.get d) := by
  refine ⟨by decide, ?_, fun c => ⟨c.tag, getClass_tag c⟩, ?_, ?_⟩
  · intro s t c hs ht
    rw [getClass_ok s c hs, getClass_ok t c ht]
  · intro T
    have hline : parsedLine "0030..0039;N" = some ⟨.Normal, 0x30, 0x39⟩ := by decide
    have hparse := parse_single_line "0030..0039;N" _ T hline
    have hstore : store (T.get .Normal) 0x30 0x39 =
        ⟨(T.get .Normal).R16 ++ [⟨0x30, 0x39⟩], (T.get .Normal).R32⟩ := by
      simp [store, MaxUint16]
    rw [hstore] at hparse
    refine ⟨hparse, fun d hd => ?_⟩
    rw [hparse]
    exact Tables.get_set_other _ _ _ _ hd
  · intro T
    have hline : parsedLine "002F;B" = some ⟨.Binary, 0x2F, 0x2F⟩ := by decide
    have hparse := parse_single_line "002F;B" _ T hline
    have hstore : store (T.get .Binary) 0x2F 0x2F =
        ⟨(T.get .Binary).R16 ++ [⟨0x2F, 0x2F⟩], (T.get .Binary).R32⟩ := by
      simp [store, MaxUint16]
    rw [hstore] at hparse
    refine ⟨hparse, fun d hd => ?_⟩
    rw [hparse]
    exact Tables.get_set_other _ _ _ _ hd

/-- C15, the claim as stated fails: the tags that `getClass` accepts are the
fifteen of its `case` labels, so no list of sixteen distinct strings is the
set of accepted tags. -/
theorem getClass_not_sixteen_tags :
    recognizedTags.length = 15 ∧
    ¬ ∃ l : List String, l.Nodup ∧ l.length = 16 ∧ ∀ s, s ∈ l ↔ ∃ c, getClass s = .ok c := by
  refine ⟨by decide, ?_⟩
  rintro ⟨l, hnd, hlen, hl⟩
  have hsub : l ⊆ recognizedTags := fun s hs => (getClass_accepts_iff s).mp ((hl s).mp hs)
  have hle := (List.subperm_of_subset hnd hsub).length_le
  have h15 : recognizedTags.length = 15 := by decide
  omega

/-- C15 as amended. The class tags that `getClass` accepts (does not reject
as unknown) are exactly fifteen one-letter codes: N, A, B, C, D, F, G, L, O,
P, R, S, U, V and X. -/
theorem getClass_fifteen_tags :
    recognizedTags = ["N", "A", "B", "C", "D", "F", "G", "L", "O", "P", "R", "S", "U", "V", "X"] ∧
    recognizedTags.Nodup ∧ recognizedTags.length = 15 ∧
    (∀ s ∈ recognizedTags, s.length = 1) ∧
    ∀ s, (∃ c, getClass s = .ok c) ↔ s ∈ recognizedTags := by
  refine ⟨rfl, by decide, by decide, by decide, getClass_accepts_iff⟩

/-! ## The first rejected line -/

theorem parse_ok_lines (lines : List String) (T0 T : Tables)
    (h : parse lines T0 = (T, .ok)) :
    ∀ t ∈ lines, skipped t = true ∨ ∃ e, parsedLine t = some e := by
  induction lines generalizing T0 with
  | nil => simp
  | cons text rest ih =>
    intro t ht
    by_cases hs : skipped text = true
    · rw [parse_cons_skipped _ _ _ hs] at h
      rcases List.mem_cons.mp ht with rfl | hmem
      · exact Or.inl hs
      · exact ih T0 h t hmem
    · cases hp : parsedLine text with
      | none =>
        obtain ⟨o, ho, hpo⟩ := parse_cons_rejected text hs hp
        rw [hpo] at h
        simp only [Prod.mk.injEq] at h
        exact absurd h.2 ho
      | some e =>
        rw [parse_cons_parsed _ _ _ _ hp] at h
        rcases List.mem_cons.mp ht with rfl | hmem
        · exact Or.inr ⟨e, hp⟩
        · exact ih _ h t hmem

/-- C16 (immediate abort at the first offending line). When `parse` does not
return `nil`, some line `text` of the input is the first that is rejected:
every line before it is accepted on its own, from any state; the outcome of
the run is the one `text` gives on its own; and the run ends the same way,
with the same outcome and the same tables, on every input that has the same
lines up to and including `text`, whatever follows. -/
theorem parse_aborts_at_first_rejected (lines : List String) (T0 T : Tables) (o : Outcome)
    (h : parse lines T0 = (T, o)) (ho : o ≠ .ok) :
    ∃ pre text post, lines = pre ++ text :: post ∧
      (∀ t ∈ pre, ∀ T', ∃ T'', parse [t] T' = (T'', .ok)) ∧
      (∀ T', parse [text] T' = (T', o)) ∧
      ∀ post', parse (pre ++ text :: post') T0 = (T, o) := by
  obtain ⟨pre, text, post, hl, hpre, hsk, hpl, hall⟩ := parse_stops lines T0 T o h ho
  refine ⟨pre, text, post, hl, ?_, ?_, hall⟩
  · intro t ht T'
    rcases parse_ok_lines pre T0 T hpre t ht with hs | ⟨e, he⟩
    · exact ⟨T', by rw [parse_cons_skipped _ _ _ hs]; rfl⟩
    · exact ⟨_, parse_single_line t e T' he⟩
  · have hs : ¬ skipped text = true := by simp [hsk]
    obtain ⟨o', _, hrej⟩ := parse_cons_rejected text hs hpl
    have h1 := hall []
    rw [parse_append _ _ _ _ hpre, hrej [] T] at h1
    simp only [Prod.mk.injEq, true_and] at h1
    subst h1
    exact fun T' => hrej [] T'

theorem parse_aborts_at_first_rejected_witness :
    parse ["0030;N", "bad", "0041;Z"] Tables.empty =
      ({ Normal := ⟨[⟨0x30, 0x30⟩], []⟩ },
        .error (.errorf "expected two semi-colon delimited parts, got bad")) ∧
    Outcome.error (.errorf "expected two semi-colon delimited parts, got bad") ≠ .ok ∧
    ∃ pre text post, ["0030;N", "bad", "0041;Z"] = pre ++ text :: post ∧
      (∀ t ∈ pre, ∀ T', ∃ T'', parse [t] T' = (T'', .ok)) ∧
      (∀ T', parse [text] T' =
        (T', .error (.errorf "expected two semi-colon delimited parts, got bad"))) ∧
      ∀ post', parse (pre ++ text :: post') Tables.empty =
        ({ Normal := ⟨[⟨0x30, 0x30⟩], []⟩ },
          .error (.errorf "expected two semi-colon delimited parts, got bad")) :=
  ⟨by decide, by decide,
    parse_aborts_at_first_rejected ["0030;N", "bad", "0041;Z"] Tables.empty _ _
      (by decide) (by decide)⟩

/-- C17 (single form against degenerate range form), evaluated at the failing
input. The string `100000000` contains no `..`; `addRange` rejects it as a
single value (bit size 32), and accepts `100000000..100000000` (bit size 64),
storing the 32-bit range `0..0`. -/
theorem addRange_single_and_range_forms_differ :
    Contains "100000000" ".." = false ∧
    addRange {} "100000000" =
      ({}, some (.withStack ⟨"ParseUint", "100000000", .ErrRange⟩)) ∧
    addRange {} ("100000000" ++ ".." ++ "100000000") = (⟨[], [⟨0, 0⟩]⟩, none) := by
  refine ⟨by decide, by decide, by decide⟩

/-! ## The single form and the range form of a specifier -/

theorem parseUintLoop_mono (cutoff m m' : Nat) (hm : m ≤ m') (l : List Char) (n v : Nat)
    (h : parseUintLoop 16 cutoff m l n = .ok v) : parseUintLoop 16 cutoff m' l n = .ok v := by
  induction l generalizing n with
  | nil => simpa [parseUintLoop] using h
  | cons ch rest ih =>
    rw [parseUintLoop] at h ⊢
    simp only at h ⊢
    split_ifs at h with hd hb hc ho hl hb2 hc2 ho2
    · have ho' : ¬ ((n * 16 % 2 ^ 64 + (ch.toNat - 48)) % 2 ^ 64 < n * 16 % 2 ^ 64 ∨
          (n * 16 % 2 ^ 64 + (ch.toNat - 48)) % 2 ^ 64 > m') := by
        intro hcon
        apply ho
        rcases hcon with hcon | hcon
        · exact Or.inl hcon
        · exact Or.inr (by omega)
      simp only [hd, hb, hc, ho', and_self, if_true, if_false]
      exact ih _ h
    · have ho' : ¬ ((n * 16 % 2 ^ 64 + (lower ch.toNat - 97 + 10)) % 2 ^ 64 < n * 16 % 2 ^ 64 ∨
          (n * 16 % 2 ^ 64 + (lower ch.toNat - 97 + 10)) % 2 ^ 64 > m') := by
        intro hcon
        apply ho2
        rcases hcon with hcon | hcon
        · exact Or.inl hcon
        · exact Or.inr (by omega)
      simp only [hd, hl, hb2, hc2, ho', and_self, if_true, if_false]
      exact ih _ h

theorem parseUintLoop_of_le (cutoff m m' : Nat) (hcut : cutoff ≤ 2 ^ 60) (l : List Char)
    (n v : Nat) (h : parseUintLoop 16 cutoff m' l n = .ok v) (hv : v ≤ m) :
    n ≤ v ∧ parseUintLoop 16 cutoff m l n = .ok v := by
  induction l generalizing n with
  | nil =>
    simp only [parseUintLoop, Except.ok.injEq] at h ⊢
    exact ⟨by omega, h⟩
  | cons ch rest ih =>
    rw [parseUintLoop] at h ⊢
    simp only at h ⊢
    split_ifs at h with hd hb hc ho hl hb2 hc2 ho2
    · obtain ⟨hle, hloop⟩ := ih _ h
      have hn : n * 16 % 2 ^ 64 = n * 16 := Nat.mod_eq_of_lt (by omega)
      rw [hn] at ho hle hloop
      have ho' : ¬ ((n * 16 + (ch.toNat - 48)) % 2 ^ 64 < n * 16 ∨
          (n * 16 + (ch.toNat - 48)) % 2 ^ 64 > m) := by
        intro hcon
        rcases hcon with hcon | hcon
        · exact ho (Or.inl hcon)
        · omega
      simp only [hd, hb, hc, hn, ho', and_self, if_true, if_false]
      refine ⟨?_, hloop⟩
      have : ¬ (n * 16 + (ch.toNat - 48)) % 2 ^ 64 < n * 16 := fun hcon => ho (Or.inl hcon)
      omega
    · obtain ⟨hle, hloop⟩ := ih _ h
      have hn : n * 16 % 2 ^ 64 = n * 16 := Nat.mod_eq_of_lt (by omega)
      rw [hn] at ho2 hle hloop
      have ho' : ¬ ((n * 16 + (lower ch.toNat - 97 + 10)) % 2 ^ 64 < n * 16 ∨
          (n * 16 + (lower ch.toNat - 97 + 10)) % 2 ^ 64 > m) := by
        intro hcon
        rcases hcon with hcon | hcon
        · exact ho2 (Or.inl hcon)
        · omega
      simp only [hd, hl, hb2, hc2, hn, ho', and_self, if_true, if_false]
      refine ⟨?_, hloop⟩
      have : ¬ (n * 16 + (lower ch.toNat - 97 + 10)) % 2 ^ 64 < n * 16 :=
        fun hcon => ho2 (Or.inl hcon)
      omega

theorem ParseUint_ok_iff (s : String) (bitSize n : Nat) (maxVal : Nat)
    (hmax : (2 ^ bitSize % 2 ^ 64 + 2 ^ 64 - 1) % 2 ^ 64 = maxVal) :
    ParseUint s 16 bitSize = .ok n ↔
      s ≠ "" ∧ parseUintLoop 16 (2 ^ 60) maxVal s.data 0 = .ok n := by
  have hdef : ParseUint s 16 bitSize =
      if s = "" then .error ⟨"ParseUint", s, .ErrSyntax⟩
      else
        match parseUintLoop 16 (2 ^ 60) ((2 ^ bitSize % 2 ^ 64 + 2 ^ 64 - 1) % 2 ^ 64)
          s.data 0 with
        | .ok n => .ok n
        | .error kind => .error ⟨"ParseUint", s, kind⟩ := rfl
  rw [hdef, hmax]
  by_cases he : s = ""
  · simp [he]
  · rw [if_neg he]
    cases hl : parseUintLoop 16 (2 ^ 60) maxVal s.data 0 with
    | error k => simp [he]
    | ok v => simp [he]

theorem ParseUint_32_of_64 (s : String) (n : Nat) (h : ParseUint s 16 32 = .ok n) :
    ParseUint s 16 64 = .ok n := by
  rw [ParseUint_ok_iff s 32 n (2 ^ 32 - 1) (by norm_num)] at h
  rw [ParseUint_ok_iff s 64 n (2 ^ 64 - 1) (by norm_num)]
  exact ⟨h.1, parseUintLoop_mono _ _ _ (by norm_num) _ _ _ h.2⟩

theorem ParseUint_64_of_32 (s : String) (n : Nat) (h : ParseUint s 16 64 = .ok n)
    (hn : n < 2 ^ 32) : ParseUint s 16 32 = .ok n := by
  rw [ParseUint_ok_iff s 64 n (2 ^ 64 - 1) (by norm_num)] at h
  rw [ParseUint_ok_iff s 32 n (2 ^ 32 - 1) (by norm_num)]
  exact ⟨h.1, (parseUintLoop_of_le _ _ _ (le_refl _) _ _ _ h.2 (by omega)).2⟩

theorem isPrefixOf_cons_ne (c0 x : Char) (sep' a : List Char) (h : x ≠ c0) :
    (c0 :: sep').isPrefixOf (x :: a) = false := by
  have : (c0 == x) = false := by
    rw [beq_eq_false_iff_ne]
    exact fun hc => h hc.symm
  simp [List.isPrefixOf, this]

theorem splitChars_no_sep (c0 : Char) (sep' a : List Char) (h : c0 ∉ a) :
    splitChars (c0 :: sep') a 0 = [a] := by
  induction a with
  | nil => rfl
  | cons x a ih =>
    have hx : x ≠ c0 := fun hc => h (by simp [hc])
    have ha : c0 ∉ a := fun hc => h (List.mem_cons_of_mem _ hc)
    rw [splitChars, isPrefixOf_cons_ne _ _ _ _ hx, ih ha]
    rfl

theorem splitChars_append_sep (c0 : Char) (sep' a b : List Char) (h : c0 ∉ a) :
    splitChars (c0 :: sep') (a ++ (c0 :: sep') ++ b) 0 = a :: splitChars (c0 :: sep') b 0 := by
  induction a with
  | nil =>
    have hp : (c0 :: sep').isPrefixOf (c0 :: (sep' ++ b)) = true := by
      rw [List.isPrefixOf_iff_prefix]
      exact ⟨b, rfl⟩
    simp only [List.nil_append, List.cons_append]
    rw [splitChars, if_pos hp]
    simp only [List.length_cons, Nat.add_sub_cancel]
    rw [splitChars_skip _ _ _ (by simp)]
    simp
  | cons x a ih =>
    have hx : x ≠ c0 := fun hc => h (by simp [hc])
    have ha : c0 ∉ a := fun hc => h (List.mem_cons_of_mem _ hc)
    simp only [List.append_assoc, List.cons_append] at ih ⊢
    rw [splitChars, isPrefixOf_cons_ne _ _ _ _ hx]
    simp only [Bool.false_eq_true, if_false]
    rw [ih ha]
    rfl

theorem containsChars_no_sep (c0 : Char) (sep' a : List Char) (h : c0 ∉ a) :
    containsChars (c0 :: sep') a = false := by
  induction a with
  | nil => rfl
  | cons x a ih =>
    have hx : x ≠ c0 := fun hc => h (by simp [hc])
    have ha : c0 ∉ a := fun hc => h (List.mem_cons_of_mem _ hc)
    simp [containsChars, isPrefixOf_cons_ne _ _ _ _ hx, ih ha]

theorem IsHexLiteral.no_dot (s : String) (h : IsHexLiteral s) : '.' ∉ s.data := by
  intro hmem
  exact absurd (h.2 _ hmem) (by decide)

theorem Split_degenerate (h : String) (hdot : '.' ∉ h.data) :
    Split (h ++ ".." ++ h) ".." = [h, h] := by
  have hsep : "..".data = '.' :: ['.'] := rfl
  unfold Split
  simp only [String.data_append, hsep]
  rw [splitChars_append_sep _ _ _ _ hdot, splitChars_no_sep _ _ _ hdot]
  rfl

/-- Two fields without a dot around `..` that spell `h..h`, where `h` has no
`..`, are `h` and `h`. -/
theorem degenerate_fields (a b h : List Char) (ha : '.' ∉ a) (hb : '.' ∉ b)
    (hh : ∀ u v, h ≠ u ++ '.' :: '.' :: v)
    (heq : a ++ '.' :: '.' :: b = h ++ '.' :: '.' :: h) : a = h := by
  rw [List.append_eq_append_iff] at heq
  rcases heq with ⟨a', h1, h2⟩ | ⟨c', h1, h2⟩
  · cases a' with
    | nil => simpa using h1.symm
    | cons x a'' =>
      simp only [List.cons_append, List.cons.injEq] at h2
      obtain ⟨rfl, h2⟩ := h2
      cases a'' with
      | nil =>
        simp only [List.nil_append, List.cons.injEq, true_and] at h2
        exact absurd (by rw [h2]; simp) hb
      | cons y a3 =>
        simp only [List.cons_append, List.cons.injEq] at h2
        obtain ⟨rfl, _⟩ := h2
        exact absurd h1 (hh a a3)
  · cases c' with
    | nil => simpa using h1
    | cons x c'' =>
      simp only [List.cons_append, List.cons.injEq] at h2
      obtain ⟨rfl, _⟩ := h2
      exact absurd (by rw [h1]; simp) ha

theorem parsedRange_range_form (raw : String) (lo hi : Nat)
    (hcont : Contains raw ".." = true) (h : parsedRange raw = some (lo, hi)) :
    ∃ a b, Split raw ".." = [a, b] ∧ ParseUint a 16 64 = .ok lo ∧
      ParseUint b 16 64 = .ok hi := by
  unfold parsedRange at h
  simp only [hcont, if_true] at h
  rcases hsp : Split raw ".." with _ | ⟨a, _ | ⟨b, _ | ⟨c, l⟩⟩⟩
  · simp [hsp] at h
  · simp [hsp] at h
  · simp only [hsp] at h
    cases hs : ParseUint a 16 64 with
    | error err => simp [hs] at h
    | ok s' =>
      cases he : ParseUint b 16 64 with
      | error err => simp [hs, he] at h
      | ok e' =>
        simp only [hs, he, Option.some.injEq, Prod.mk.injEq] at h
        obtain ⟨rfl, rfl⟩ := h
        exact ⟨a, b, rfl, hs, he⟩
  · simp [hsp] at h

/-- Apart from the literals that only the bit size 64 accepts, the single form
`h` and the range form `h..h` of a specifier have the same outcome: the same
table afterwards, and an error from both or from neither. -/
theorem addRange_forms_agree (t : RangeTable) (h : String) (hc : Contains h ".." = false)
    (hfit : ∀ v, ParseUint h 16 64 = .ok v → v < 2 ^ 32) :
    (addRange t (h ++ ".." ++ h)).1 = (addRange t h).1 ∧
    ((addRange t (h ++ ".." ++ h)).2 = none ↔ (addRange t h).2 = none) := by
  have hcont : Contains (h ++ ".." ++ h) ".." = true := Contains_append h ".." h
  cases hp : ParseUint h 16 32 with
  | ok n =>
    have hdot := IsHexLiteral.no_dot h (ParseUint_hex h 32 n hp)
    have h1 : parsedRange h = some (n, n) := by
      simp [parsedRange, hc, hp]
    have h2 : parsedRange (h ++ ".." ++ h) = some (n, n) := by
      simp [parsedRange, hcont, Split_degenerate h hdot, ParseUint_32_of_64 h n hp]
    rw [addRange_of_parsedRange _ _ _ _ h1, addRange_of_parsedRange _ _ _ _ h2]
    exact ⟨rfl, Iff.rfl⟩
  | error e =>
    have h1 : parsedRange h = none := by
      simp [parsedRange, hc, hp]
    have h2 : parsedRange (h ++ ".." ++ h) = none := by
      cases hpr : parsedRange (h ++ ".." ++ h) with
      | none => rfl
      | some p =>
        exfalso
        obtain ⟨lo, hi⟩ := p
        obtain ⟨a, b, hsp, hlo, hhi⟩ := parsedRange_range_form _ lo hi hcont hpr
        have heq := eq_append_of_Split _ ".." a b (by decide) hsp
        have hdata : a.data ++ '.' :: '.' :: b.data = h.data ++ '.' :: '.' :: h.data := by
          have := congrArg String.data heq
          simp only [String.data_append] at this
          simpa using this.symm
        have hh : ∀ u v, h.data ≠ u ++ '.' :: '.' :: v := by
          intro u v huv
          have hcc := containsChars_append ('.' :: ['.']) u v
          have hc' : containsChars ('.' :: ['.']) h.data = false := hc
          rw [huv] at hc'
          simp only [List.append_assoc, List.cons_append, List.nil_append] at hcc
          rw [hcc] at hc'
          exact absurd hc' (by simp)
        have hah := degenerate_fields a.data b.data h.data
          (IsHexLiteral.no_dot a (ParseUint_hex a 64 lo hlo))
          (IsHexLiteral.no_dot b (ParseUint_hex b 64 hi hhi)) hh hdata
        have hah' : a = h := String.ext hah
        rw [hah'] at hlo
        rw [ParseUint_64_of_32 h lo hlo (hfit lo hlo)] at hp
        exact absurd hp (by simp)
    obtain ⟨e1, he1⟩ := addRange_of_parsedRange_none h h1
    obtain ⟨e2, he2⟩ := addRange_of_parsedRange_none _ h2
    rw [he1 t, he2 t]
    exact ⟨rfl, by simp⟩

/-! ## Lines that the scanner refuses -/

theorem replicate_65536 (c : Char) :
    List.replicate 65536 c = c :: List.replicate 65535 c :=
  List.replicate_succ c 65535

/-- C5, the claim as stated fails: `longLine` is not empty, does not begin
with `#` and has one semicolon-delimited field, but it has `MaxScanTokenSize`
bytes, so the scanner stops at it and `parse` returns `ErrTooLong`, whose
message ("bufio.Scanner: token too long") does not carry the line. -/
theorem parse_long_malformed_line :
    longLine ≠ "" ∧ HasPrefix longLine "#" = false ∧ (Split longLine ";").length ≠ 2 ∧
    len longLine = 65536 ∧
    parse [longLine] Tables.empty = (Tables.empty, .error .ErrTooLong) ∧
    parse [longLine] Tables.empty ≠
      (Tables.empty,
        .error (.errorf ("expected two semi-colon delimited parts, got " ++ longLine))) := by
  have hlen : len longLine = 65536 := len_replicate _ _ (by decide)
  have hparse : parse [longLine] Tables.empty = (Tables.empty, .error .ErrTooLong) :=
    parse_cons_tooLong _ _ _ (by rw [hlen]; decide)
  have hdata : longLine.data = List.replicate 65536 'x' := rfl
  refine ⟨?_, ?_, ?_, hlen, hparse, ?_⟩
  · intro h
    have h' := congrArg String.data h
    rw [hdata, replicate_65536] at h'
    exact absurd h' (List.cons_ne_nil _ _)
  · unfold HasPrefix
    rw [hdata, replicate_65536]
    exact isPrefixOf_cons_ne _ _ _ _ (by decide)
  · unfold Split
    have hsep : ";".data = ';' :: [] := rfl
    have hno : ';' ∉ List.replicate 65536 'x' := by
      intro hmem
      exact absurd (List.eq_of_mem_replicate hmem) (by decide)
    rw [hsep, hdata, splitChars_no_sep _ _ _ hno]
    decide
  · rw [hparse]
    intro h
    simp only [Prod.mk.injEq, Outcome.error.injEq, true_and] at h
    exact GoError.noConfusion h

/-- C11, the claim as stated fails: `longComment` begins with `#` and has
`MaxScanTokenSize` bytes, so the scanner stops at it: on the lines
`longComment`, `0041;A` the run returns `ErrTooLong` and stores nothing, while
on the sequence without its comment and empty lines it returns `nil` and
stores the range of `0041;A`. -/
theorem parse_long_comment_not_skipped :
    HasPrefix longComment "#" = true ∧ len longComment = 65536 ∧
    parse [longComment, "0041;A"] Tables.empty = (Tables.empty, .error .ErrTooLong) ∧
    parse ([longComment, "0041;A"].filter
        (fun text => !(HasPrefix text "#" || decide (text = "")))) Tables.empty =
      ({ Alphabetic := ⟨[⟨0x41, 0x41⟩], []⟩ }, .ok) := by
  have hlen : len longComment = 65536 := len_replicate _ _ (by decide)
  have hdata : longComment.data = List.replicate 65536 '#' := rfl
  have hpre : HasPrefix longComment "#" = true := by
    unfold HasPrefix
    rw [hdata, replicate_65536]
    decide
  refine ⟨hpre, hlen, parse_cons_tooLong _ _ _ (by rw [hlen]; decide), ?_⟩
  have hkeep : (!(HasPrefix "0041;A" "#" || decide ("0041;A" = ""))) = true := by decide
  rw [List.filter_cons, hpre, List.filter_cons, if_pos hkeep]
  decide

/-- A final carriage return is not part of the text of a line: the line
`0030;N` followed by one is read as `0030;N`. -/
theorem parse_carriage_return_example :
    dropCR (String.mk ("0030;N".data ++ [Char.ofNat 13])) = "0030;N" ∧
    parse [String.mk ("0030;N".data ++ [Char.ofNat 13])] Tables.empty =
      ({ Normal := ⟨[⟨0x30, 0x30⟩], []⟩ }, .ok) := by
  refine ⟨by decide, by decide⟩

end MathClass
